import Mathlib

/-!
Verification development for the `conversion-table-manager` JavaScript package.

The package turns a sparse, human-authored unit table into a normalized
conversion table, derives a single regular expression recognizing any unit
name of the table, parses "major value [major unit] [minor value]" strings
with it, and converts between units through a common base unit with the
affine transform `value_in_base = value * scale + bias`.

Shallow embedding conventions used throughout this file:

* JavaScript objects iterated with `for (const key in table)` are modelled as
  association lists `List (String × _)` in insertion order; property lookup is
  first-match lookup (`alookup`) and property assignment is in-place update of
  the first matching entry (`aupdate`) or an append for a fresh key (`upsert`).
* Numbers are modelled exactly.  Scale and bias values written as decimal
  literals in the source and its tables are carried as exact decimals
  (`DecNum`, a mantissa/exponent pair); `Number.prototype.toFixed` /
  `toString`-based digit counting is modelled on that decimal form, which
  agrees with JavaScript for the decimal literals the package manipulates
  (at most 15 significant digits round-trip through a double unchanged).
  Conversion arithmetic (`parse` / `convert`) is carried out in `Q`, an
  exact rational type kept in canonical (reduced) form so that results
  compute by kernel reduction.  Division by zero (a zero-scale desired
  unit, where JavaScript would produce an infinity) yields `0` in this
  model and is outside the claims considered here.
* The regex string built by `buildRegexString` always has the fixed shape
  `^\s*(?<majorValue>\d+(?:\.\d+)?)\s*(?<majorUnit>U1|U2|...)?\s*(?<minorValue>\d+(?:\.\d+)?)?\s*$`,
  so the pattern is represented by its unit alternation list (in the sorted
  order produced by the builder).  `jsMatch` implements the JavaScript
  backtracking semantics of that fixed pattern shape: every quantifier is
  greedy, choice points are retried in preference order (longest-first for
  `\s*` and `\d+`, present-before-absent for `?`, left-to-right for `|`),
  and alternation branches are treated as literal unit names.
* Exceptions caught by the source's `try`/`catch` blocks are modelled as
  `Except.error` values with descriptive text standing in for the engine's
  `TypeError` message.
-/

/-! ### Generic helpers: association lists, decidability -/

/-- First-match lookup in an association list, modelling JavaScript property
read `obj[key]` on an object built in insertion order. -/
def alookup {α : Type} (l : List (String × α)) (k : String) : Option α :=
  match l with
  | [] => none
  | (k0, v0) :: rest => if k0 = k then some v0 else alookup rest k

/-- In-place update of the first entry holding key `k`, modelling JavaScript
property write `obj[key] = v` for a key that is already present. -/
def aupdate {α : Type} (l : List (String × α)) (k : String) (v : α) : List (String × α) :=
  match l with
  | [] => []
  | (k0, v0) :: rest => if k0 = k then (k0, v) :: rest else (k0, v0) :: aupdate rest k v

/-- JavaScript property write that also handles a fresh key: update the first
matching entry if present, otherwise append at the end (insertion order). -/
def upsert {α : Type} (l : List (String × α)) (k : String) (v : α) : List (String × α) :=
  if (alookup l k).isSome then aupdate l k v else l ++ [(k, v)]

def exceptEqDec {ε α : Type} [DecidableEq ε] [DecidableEq α] : DecidableEq (Except ε α) := fun x y =>
  match x, y with
  | .error a, .error b =>
      if h : a = b then .isTrue (by rw [h]) else .isFalse (by intro hc; cases hc; exact h rfl)
  | .error _, .ok _ => .isFalse (by intro hc; cases hc)
  | .ok _, .error _ => .isFalse (by intro hc; cases hc)
  | .ok a, .ok b =>
      if h : a = b then .isTrue (by rw [h]) else .isFalse (by intro hc; cases hc; exact h rfl)

instance {ε α : Type} [DecidableEq ε] [DecidableEq α] : DecidableEq (Except ε α) := exceptEqDec

/-! ### Exact decimal numbers

`DecNum` represents the decimal number `m / 10 ^ e`.  This is the form in
which every scale/bias literal of the package and its tables is written. -/

structure DecNum where
  m : Int
  e : Nat
deriving DecidableEq

def decZero : DecNum := ⟨0, 0⟩

def decOne : DecNum := ⟨1, 0⟩



/-! ### Exact rational arithmetic

A self-contained rational type in canonical form: `qMk` divides out the gcd
and normalizes signs, and every arithmetic operation goes through `qMk`, so
values built by the model compare correctly with `DecidableEq`. -/

structure Q where
  n : Int
  d : Nat
deriving DecidableEq

/-- Canonical fraction `n / d` (sign on the numerator, gcd divided out).
`d = 0` yields `0`. -/
def qMk (n d : Int) : Q :=
  if d = 0 then ⟨0, 1⟩
  else
    let n1 : Int := if d < 0 then -n else n
    let dn : Nat := d.natAbs
    let g : Nat := Nat.gcd n1.natAbs dn
    ⟨n1 / (g : Int), dn / g⟩

instance (n : Nat) : OfNat Q n := ⟨⟨Int.ofNat n, 1⟩⟩

instance : Add Q := ⟨fun a b => qMk (a.n * b.d + b.n * a.d) (a.d * b.d)⟩

instance : Sub Q := ⟨fun a b => qMk (a.n * b.d - b.n * a.d) (a.d * b.d)⟩

instance : Mul Q := ⟨fun a b => qMk (a.n * b.n) (a.d * b.d)⟩

instance : Div Q := ⟨fun a b => qMk (a.n * b.d) (a.d * b.n)⟩

def DecNum.toQ (dn : DecNum) : Q := qMk dn.m ((10 : Int) ^ dn.e)

/-- Strip trailing decimal zeros: the canonical decimal form, matching the
digits printed by `Number.prototype.toString` for the doubles the package
manipulates. -/
def stripTZ (m : Int) : Nat → DecNum
  | 0 => ⟨m, 0⟩
  | Nat.succ e => if m % 10 = 0 then stripTZ (m / 10) e else ⟨m, e + 1⟩

/-- `ConversionTable._getPrecision`: the number of digits after the decimal
point in the number's `toString` form. -/
def decPrec (d : DecNum) : Nat := (stripTZ d.m d.e).e

/-- `ConversionTable._roundToPrecision`: `parseFloat(num.toFixed(precision))`.
`toFixed` rounds to `p` decimal digits, ties toward the larger value. -/
def decRound (d : DecNum) (p : Nat) : DecNum :=
  if d.e ≤ p then d
  else
    let k : Int := (10 : Int) ^ (d.e - p)
    ⟨Int.fdiv (2 * d.m + k) (2 * k), p⟩

/-! ### Character classes and the pattern matcher

The pattern built by `buildRegexString` is always
`^\s*(?<majorValue>\d+(?:\.\d+)?)\s*(?<majorUnit>U1|...|Un)?\s*(?<minorValue>\d+(?:\.\d+)?)?\s*$`.
`jsMatch` below implements `input.trim().match(new RegExp(pattern))` for this
fixed shape, with the JavaScript engine's backtracking preference order. -/

/-- JavaScript `\d`: exactly the ASCII digits. -/
def isDigitCh (c : Char) : Bool := 48 ≤ c.toNat && c.toNat ≤ 57

/-- JavaScript `\s` (and the class trimmed by `String.prototype.trim`),
restricted to the code points the package's inputs can contain. -/
def isWsCh (c : Char) : Bool :=
  c == ' ' || c == '\t' || c == '\n' || c == '\r' || c == '\x0b' || c == '\x0c' || c == '\xa0'

/-- Length of the maximal leading run of digits. -/
def digitRun : List Char → Nat
  | [] => 0
  | c :: cs => if isDigitCh c then digitRun cs + 1 else 0

/-- Length of the maximal leading run of whitespace. -/
def wsRun : List Char → Nat
  | [] => 0
  | c :: cs => if isWsCh c then wsRun cs + 1 else 0

def allWs (l : List Char) : Bool := l.all isWsCh

def dropLeadingWs : List Char → List Char
  | [] => []
  | c :: cs => if isWsCh c then dropLeadingWs cs else c :: cs

/-- `String.prototype.trim`. -/
def trimChars (l : List Char) : List Char :=
  ((dropLeadingWs l).reverse |> dropLeadingWs).reverse

/-- Remainders of `s` after `\s*` consumes some of its maximal whitespace run,
in backtracking preference order (greedy: longest consumption first). -/
def wsSplits (s : List Char) : List (List Char) :=
  (List.range (wsRun s + 1)).map (fun i => s.drop (wsRun s - i))

/-- Candidates for the optional fractional part `(?:\.\d+)?` after an integer
token `t`, in preference order (present before absent is handled by the
caller appending the fraction-less candidate). -/
def fracSplits (t : List Char) (r : List Char) : List (List Char × List Char) :=
  match r with
  | c :: r2 =>
      if c = '.' then
        let m := digitRun r2
        (List.range m).map (fun j => (t ++ '.' :: r2.take (m - j), r2.drop (m - j)))
      else []
  | [] => []

/-- `(token, rest)` splits of `s` against `\d+(?:\.\d+)?`, in backtracking
preference order: more integer digits first; for each, fractional part
present (longest first) before absent. -/
def numSplits (s : List Char) : List (List Char × List Char) :=
  (List.range (digitRun s)).flatMap (fun i =>
    let d := digitRun s - i
    fracSplits (s.take d) (s.drop d) ++ [(s.take d, s.drop d)])

/-- Match `\s*(?<minorValue>\d+(?:\.\d+)?)?\s*$` against `s`, returning the
minor-value capture on success. -/
def matchTail (s : List Char) : Option (Option (List Char)) :=
  (wsSplits s).findSome? (fun s1 =>
    ((numSplits s1).findSome? (fun p =>
        if allWs p.2 then some (some p.1) else none)).orElse (fun _ =>
      if allWs s1 then some none else none))

/-- Match `(?<majorUnit>U1|...|Un)?` followed by the tail pattern: try the
alternation branches in order (each a literal unit name), then the empty
group; returns the major-unit and minor-value captures. -/
def matchUnits (units : List (List Char)) (s : List Char) :
    Option (Option (List Char) × Option (List Char)) :=
  (units.findSome? (fun u =>
      if u.isPrefixOf s then
        (matchTail (s.drop u.length)).map (fun mv => (some u, mv))
      else none)).orElse (fun _ =>
    (matchTail s).map (fun mv => ((none : Option (List Char)), mv)))

/-- The named capture groups of a successful match. -/
structure MatchGroups where
  majorValue : List Char
  majorUnit : Option (List Char)
  minorValue : Option (List Char)
deriving DecidableEq

/-- `input.trim().match(new RegExp(regexString))` for the pattern shape built
by `buildRegexString`, whose alternation lists the names in `units`. -/
def jsMatch (units : List (List Char)) (input : List Char) : Option MatchGroups :=
  let s := trimChars input
  (wsSplits s).findSome? (fun s1 =>
    (numSplits s1).findSome? (fun p =>
      (wsSplits p.2).findSome? (fun s3 =>
        (matchUnits units s3).map (fun q => ⟨p.1, q.1, q.2⟩))))

/-- Numeric value of a `\d+(?:\.\d+)?` token (JavaScript `parseFloat` on the
captured text). -/
def digitsToNat (l : List Char) : Nat :=
  l.foldl (fun n c => 10 * n + (c.toNat - 48)) 0

def splitAtDot : List Char → Option (List Char × List Char)
  | [] => none
  | c :: cs =>
      if c = '.' then some ([], cs)
      else (splitAtDot cs).map (fun p => (c :: p.1, p.2))

def parseNum (l : List Char) : Q :=
  match splitAtDot l with
  | some (a, b) =>
      qMk ((digitsToNat a : Int) * (10 : Int) ^ b.length + (digitsToNat b : Int))
        ((10 : Int) ^ b.length)
  | none => qMk (digitsToNat l : Int) 1

/-! ### Data model and table normalization (`ConversionTable.normalizeTable`) -/

/-- A raw term value, as authored: either a string (e.g. `"Meter(s)"`,
`"Foot/Feet"`) or an already-split singular/plural pair. -/
inductive TermVal where
  | str (s : String)
  | pair (a b : String)
deriving DecidableEq

/-- A raw, sparse unit entry as authored by the caller.  Absent JavaScript
properties are `none`/`false`; a falsy `alias`/`minor`/`term` (empty string)
is modelled as absent, matching the truthiness tests in the source. -/
structure RawUnit where
  base : Bool := false
  scale : Option DecNum := none
  bias : Option DecNum := none
  aliasKey : Option String := none
  minor : Option String := none
  term : Option TermVal := none
deriving DecidableEq

/-- The resolved, defaulted form produced by
`ConversionTable._getNormalizedUnit`. -/
structure NormalizedUnit where
  base : Bool
  scale : DecNum
  bias : DecNum
  aliasKey : Option String
  minor : Option String
  term : Option (String × String)
deriving DecidableEq

def splitAtFirst (c : Char) : List Char → Option (List Char × List Char)
  | [] => none
  | c0 :: cs =>
      if c0 = c then some ([], cs)
      else (splitAtFirst c cs).map (fun p => (c0 :: p.1, p.2))

/-- `ConversionTable._parseTerm` on a string: try `prefixpart(suffix)` (regex
`^([^(]+)\(([^)]+)\)$`), then `singular/plural` (regex `^([^\/]+)\/(.+)$`),
else duplicate the string; an empty (falsy) string yields no term. -/
def parseTermStr (s : String) : Option (String × String) :=
  let cs := s.data
  match splitAtFirst '(' cs with
  | some (a, rest) =>
      if a ≠ [] ∧ rest.getLast? = some ')' ∧ rest.dropLast ≠ [] ∧ ')' ∉ rest.dropLast then
        some (String.mk a, String.mk (a ++ rest.dropLast))
      else
        match splitAtFirst '/' cs with
        | some (a2, b2) =>
            if a2 ≠ [] ∧ b2 ≠ [] then some (String.mk a2, String.mk b2)
            else if cs ≠ [] then some (s, s) else none
        | none => if cs ≠ [] then some (s, s) else none
  | none =>
      match splitAtFirst '/' cs with
      | some (a2, b2) =>
          if a2 ≠ [] ∧ b2 ≠ [] then some (String.mk a2, String.mk b2)
          else if cs ≠ [] then some (s, s) else none
      | none => if cs ≠ [] then some (s, s) else none

/-- `ConversionTable._parseTerm`. -/
def parseTerm : Option TermVal → Option (String × String)
  | some (.pair a b) => some (a, b)
  | some (.str s) => parseTermStr s
  | none => none

/-- The loop state of `normalizeTable`: the raw table (mutated in place when
an alias is resolved), the normalized table accumulated in insertion order,
the base key found so far, and the running precision maximum.  The source
initializes `let baseKey = ''` and tests it with string truthiness, so the
recorded base key is a plain string with `""` as the "no base yet"
sentinel. -/
structure NormState where
  tbl : List (String × RawUnit)
  acc : List (String × NormalizedUnit)
  baseKey : String
  maxPrec : Nat
deriving DecidableEq

/-- `ConversionTable._getNormalizedUnit` applied to the (alias-resolved,
possibly mutated) entry value, with the scale already rounded to 15 decimal
digits and the term split: `base` coerced to a boolean, `scale` defaulted to
1, `bias` to 0, `alias`/`minor` to null. -/
def normUnitOf (value1 : RawUnit) : NormalizedUnit :=
  { base := value1.base, scale := decRound (value1.scale.getD decOne) 15,
    bias := value1.bias.getD decZero, aliasKey := value1.aliasKey,
    minor := value1.minor, term := parseTerm value1.term }

/-- The duplicate-base check at the top of the normalization loop body: it
inspects the entry value's own `base` flag (before alias handling) and fails
when the recorded base key is truthy, naming both colliding keys.  The
source tests `if (baseKey)`: a string is truthy exactly when it is
non-empty, so a base entry keyed `""` is recorded into the falsy sentinel
and never arms the duplicate check. -/
def checkBase (key : String) (value0 : RawUnit) (bk : String) :
    Except String String :=
  if value0.base then
    if bk ≠ "" then
      .error ("Duplicate Base Key in table: " ++ key ++ " collides with " ++ bk)
    else .ok key
  else .ok bk

/-- The alias block of the normalization loop body:
`const a = value.alias; value = table[value.alias]; value.alias = a;` —
the target entry of the *raw table* is looked up and its `alias` field is
overwritten (in place) with its own key; an absent target makes the
assignment throw (`TypeError`, caught by the surrounding `try`). -/
def resolveAlias (tableName : String) (value0 : RawUnit)
    (tbl : List (String × RawUnit)) :
    Except String (RawUnit × List (String × RawUnit)) :=
  match value0.aliasKey with
  | some a =>
    match alookup tbl a with
    | none =>
        .error ("Error normalizing table: " ++ tableName ++
          " - cannot set alias on missing target " ++ a)
    | some t =>
        .ok ({ t with aliasKey := some a }, aupdate tbl a { t with aliasKey := some a })
  | none => .ok (value0, tbl)

/-- One iteration of the `for (const key in table)` loop of
`ConversionTable.normalizeTable`: duplicate-base check on the entry's own
`base` flag, alias resolution (mutating the raw table), normalization of the
entry, and the per-entry decimal-digit count folded into the running
maximum. -/
def normStep (tableName key : String) (st : NormState) : Except String NormState :=
  match alookup st.tbl key with
  | none => .error ("internal: key not present in table: " ++ key)
  | some value0 =>
    match checkBase key value0 st.baseKey with
    | .error e => .error e
    | .ok baseKey1 =>
      match resolveAlias tableName value0 st.tbl with
      | .error e => .error e
      | .ok (value1, tbl1) =>
        .ok ⟨tbl1, st.acc ++ [(key, normUnitOf value1)], baseKey1,
             max st.maxPrec (decPrec (decRound (value1.scale.getD decOne) 15))⟩

def normLoop (tableName : String) (keys : List String) (st : NormState) :
    Except String NormState :=
  match keys with
  | [] => .ok st
  | k :: ks =>
    match normStep tableName k st with
    | .error e => .error e
    | .ok st1 => normLoop tableName ks st1

/-- The successful result of `normalizeTable`. -/
structure NormResult where
  table : List (String × NormalizedUnit)
  base : String
  precision : Nat
deriving DecidableEq

/-- `ConversionTable.normalizeTable`.  The final base test mirrors the
source's `if (!baseKey)`: the empty string is falsy, so a run that never
recorded a non-empty base key reports the no-base error. -/
def normalizeTable (raw : List (String × RawUnit)) (tableName : String) :
    Except String NormResult :=
  match normLoop tableName (raw.map Prod.fst) ⟨raw, [], "", 6⟩ with
  | .error e => .error e
  | .ok st =>
    if st.baseKey = "" then .error ("No Base Key declared in table: " ++ tableName)
    else .ok ⟨st.acc, st.baseKey, max 6 (min 15 st.maxPrec)⟩

/-- Stable insertion of `x` into a list sorted by descending string length:
`x` is placed before the first element whose length does not exceed its own,
so elements of equal length keep their original relative order. -/
def insertDesc (x : String) : List String → List String
  | [] => [x]
  | y :: ys => if y.length ≤ x.length then x :: y :: ys else y :: insertDesc x ys

/-- Stable sort by descending string length, the order produced by the stable
`Array.prototype.sort` with comparator `(a, b) => b.length - a.length`. -/
def sortDesc : List String → List String
  | [] => []
  | x :: xs => insertDesc x (sortDesc xs)

/-- `ConversionTable.buildRegexString`, represented by the unit alternation
it joins into the fixed pattern template: the table's keys sorted by
descending string length (a stable sort, as `Array.prototype.sort` is). -/
def buildRegexString (table : List (String × NormalizedUnit)) (tableName : String) :
    Except String (List String) :=
  let units := table.map Prod.fst
  if units.isEmpty then .error ("table:" ++ tableName ++ " No units found to build regex.")
  else .ok (sortDesc units)

/-- The `ConversionTable` class: normalized table, base key, compiled pattern
(its unit alternation), name, and precision clamped to `[6, 15]` by the
constructor. -/
structure ConversionTable where
  table : List (String × NormalizedUnit)
  base : String
  regexUnits : List String
  tableName : String
  precision : Nat
deriving DecidableEq

/-- `ConversionTable.factory`. -/
def factory (rawTable : List (String × RawUnit)) (tableName : String) :
    Except String ConversionTable :=
  match normalizeTable rawTable tableName with
  | .error e => .error e
  | .ok nd =>
    match buildRegexString nd.table tableName with
    | .error e => .error e
    | .ok us =>
        .ok { table := nd.table, base := nd.base, regexUnits := us,
              tableName := tableName, precision := max 6 (min 15 nd.precision) }

/-! ### Parsing and converting (`ConversionTableOperations`) -/

structure MainParse where
  unit : String
  value : Q
  scale : Q
  bias : Q
deriving DecidableEq

structure SubParse where
  unit : Option String
  value : Q
  scale : Q
  bias : Q
deriving DecidableEq

structure ParseResult where
  main : MainParse
  sub : Option SubParse
  base : String
deriving DecidableEq

structure ConvertResult where
  unit : String
  value : Q
deriving DecidableEq

/-- Scale component of the `sub` record:
`conversionTable.table[tableEntry.minor]?.scale || 1` (note `||`: a zero
scale also falls back to 1). -/
def subScale (ct : ConversionTable) (minor : Option String) : Q :=
  match minor with
  | some m =>
      match alookup ct.table m with
      | some me => if me.scale.toQ = 0 then 1 else me.scale.toQ
      | none => 1
  | none => 1

/-- Bias component of the `sub` record:
`conversionTable.table[tableEntry.minor]?.bias || 0` (`|| 0` is the identity
on the exact numbers modelled here). -/
def subBias (ct : ConversionTable) (minor : Option String) : Q :=
  match minor with
  | some m =>
      match alookup ct.table m with
      | some me => me.bias.toQ
      | none => 0
  | none => 0

/-- `ConversionTableOperations.parse`:

* match the trimmed input against the table's pattern;
* `tableEntry = table[majorUnit] || table[base]`, `resolvedUnit = majorUnit || base`
  (an empty capture is falsy and resolves to the base);
* one level of alias indirection: report the alias target's key and take
  scale/bias from the target entry;
* the sub record is built whenever a minor value was captured, looking the
  main entry's `minor` key (possibly `null`) up in the table with `|| 1` /
  `|| 0` fallbacks.

The two `.error "Error parsing input: ..."` branches model the `TypeError`s
the source would throw (and catch) when the base key or an alias target is
missing from the table; both are unreachable for factory-built tables. -/
def parse (input : String) (ct : ConversionTable) : Except String ParseResult :=
  match jsMatch (ct.regexUnits.map String.data) input.data with
  | none => .error "Invalid input format or no match found."
  | some g =>
    let muStr : Option String := g.majorUnit.map (fun l => String.mk l)
    let entry0 : Option NormalizedUnit :=
      match muStr with
      | some u => alookup ct.table u
      | none => none
    match entry0.orElse (fun _ => alookup ct.table ct.base) with
    | none => .error "Error parsing input: no table entry for matched unit"
    | some e0 =>
      let ru0 : String :=
        match muStr with
        | some u => if u = "" then ct.base else u
        | none => ct.base
      match (match e0.aliasKey with
             | some k =>
               match alookup ct.table k with
               | none => .error "Error parsing input: alias target missing"
               | some e1 => .ok (k, e1)
             | none => .ok (ru0, e0) : Except String (String × NormalizedUnit)) with
      | .error e => .error e
      | .ok (ru, entry) =>
        .ok { main := { unit := ru, value := parseNum g.majorValue,
                        scale := entry.scale.toQ, bias := entry.bias.toQ },
              sub := match g.minorValue with
                     | some mv => some { unit := entry.minor, value := parseNum mv,
                                         scale := subScale ct entry.minor,
                                         bias := subBias ct entry.minor }
                     | none => none,
              base := ct.base }

/-- The base-unit accumulator of `ConversionTableOperations.convert`:
`valueInBase = main.value * main.scale + main.bias`, with
`sub.value * sub.scale + sub.bias` added when a sub record is present. -/
def valueInBase (parsed : ParseResult) : Q :=
  match parsed.sub with
  | some s => parsed.main.value * parsed.main.scale + parsed.main.bias +
      (s.value * s.scale + s.bias)
  | none => parsed.main.value * parsed.main.scale + parsed.main.bias

/-- `ConversionTableOperations.convert`: parse, look up the desired unit,
accumulate `valueInBase`, and return
`(valueInBase - desired.bias) / desired.scale`. -/
def convert (inputValue desiredUnit : String) (ct : ConversionTable) :
    Except String ConvertResult :=
  match parse inputValue ct with
  | .error e => .error e
  | .ok parsed =>
    match alookup ct.table desiredUnit with
    | none => .error ("Unit \x27" ++ desiredUnit ++ "\x27 not found.")
    | some d =>
      .ok { unit := desiredUnit,
            value := (valueInBase parsed - d.bias.toQ) / d.scale.toQ }

/-- `ConversionTable._pluralize`. -/
def pluralize (ct : ConversionTable) (unit : String) (value : Q) : String :=
  match alookup ct.table unit with
  | none => unit
  | some ud =>
    match ud.term with
    | none => unit
    | some t => if value = 1 then t.1 else t.2

/-! ### The registry (`ConversionTableManager`) -/

structure ConversionTableManager where
  tables : List (String × ConversionTable)
deriving DecidableEq

def emptyManager : ConversionTableManager := ⟨[]⟩

/-- `ConversionTableManager.register`: reject an existing name unless
`force`; build through `factory`; only install the instance on success.
Returns the `[error, message]` pair together with the updated registry
(the receiver is mutated in place in the source). -/
def register (m : ConversionTableManager) (name : String)
    (rawTable : List (String × RawUnit)) (force : Bool) :
    Except String String × ConversionTableManager :=
  if (alookup m.tables name).isSome && !force then
    (.error ("Table \x27" ++ name ++ "\x27 is already registered. Use force=true to overwrite."), m)
  else
    match factory rawTable name with
    | .error e => (.error e, m)
    | .ok inst =>
        (.ok ("Table \x27" ++ name ++ "\x27 registered successfully."),
         ⟨upsert m.tables name inst⟩)

/-- `ConversionTableManager.unregister`. -/
def unregister (m : ConversionTableManager) (name : String) (verbose : Bool) :
    Except String String × ConversionTableManager :=
  if (alookup m.tables name).isSome then
    (.ok ("Table \x27" ++ name ++ "\x27 unregistered successfully."),
     ⟨m.tables.filter (fun kv => kv.1 ≠ name)⟩)
  else if verbose then
    (.error ("Table \x27" ++ name ++ "\x27 is not registered."), m)
  else (.error "", m)

/-- `ConversionTableManager.get`. -/
def getTable (m : ConversionTableManager) (name : String) : Except String ConversionTable :=
  match alookup m.tables name with
  | none => .error ("Table \x27" ++ name ++ "\x27 not found.")
  | some t => .ok t

structure FindResult where
  scale : Q
  bias : Q
  term : Option (String × String)
deriving DecidableEq

/-- `ConversionTableManager.find`: resolve one level of alias indirection;
a dangling alias is a distinct, reportable error. -/
def find (m : ConversionTableManager) (unitKey tableName : String) :
    Except String FindResult :=
  match alookup m.tables tableName with
  | none => .error ("Table \x27" ++ tableName ++ "\x27 not found.")
  | some table =>
    match alookup table.table unitKey with
    | none =>
        .error ("Unit \x27" ++ unitKey ++ "\x27 not found in table \x27" ++ tableName ++ "\x27.")
    | some u0 =>
      match u0.aliasKey with
      | some a =>
        match alookup table.table a with
        | none =>
            .error ("Alias \x27" ++ unitKey ++ "\x27 does not map to a valid unit in the table.")
        | some r => .ok { scale := r.scale.toQ, bias := r.bias.toQ, term := r.term }
      | none => .ok { scale := u0.scale.toQ, bias := u0.bias.toQ, term := u0.term }

/-! ### The legacy singleton registry (`ConversionTable` class, second module)

The repository also ships an earlier registry in which `register` stores
`{instance}` where `instance = ConversionTable.instance()` is the one
process-wide singleton: every registered name wraps the *same* instance,
whose `table`/`regexString` fields are overwritten by each registration.
Its observable state is therefore the set of registered names plus the
single shared table. -/

/-- The legacy `normalizeTable`: base entries get `scale = 1`; alias entries
are a spread-copy of the raw target (an absent target spreads to `{}`)
keeping the alias; other entries get defaulted scale/bias.  No mutation, no
base-uniqueness check, no precision tracking, no term splitting. -/
def legacyNormalizeTable (table : List (String × RawUnit)) : List (String × RawUnit) :=
  table.map (fun kv =>
    let value := kv.2
    if value.base then
      (kv.1, { value with scale := some decOne, bias := some (value.bias.getD decZero) })
    else
      match value.aliasKey with
      | some a => (kv.1, { (alookup table a).getD {} with aliasKey := some a })
      | none =>
          (kv.1, { value with scale := some (value.scale.getD decOne),
                              bias := some (value.bias.getD decZero) }))

structure LegacyConversionTable where
  names : List String
  tbl : List (String × RawUnit)
  regexUnits : List String
deriving DecidableEq

def legacyEmpty : LegacyConversionTable := ⟨[], [], []⟩

/-- The legacy `register`: after the force check it overwrites the shared
singleton's `table` and `regexString` and records the name. -/
def legacyRegister (st : LegacyConversionTable) (name : String)
    (table : List (String × RawUnit)) (force : Bool) :
    Except String Bool × LegacyConversionTable :=
  if st.names.contains name && !force then
    (.error ("Table \x27" ++ name ++ "\x27 is already registered. Use force=true to overwrite."),
     st)
  else
    let nt := legacyNormalizeTable table
    (.ok true,
     { names := if st.names.contains name then st.names else st.names ++ [name],
       tbl := nt,
       regexUnits := sortDesc (nt.map Prod.fst) })

/-- The legacy `get`: returns `this.tables[name].instance.table` — the shared
singleton's current table, whichever registration wrote it last. -/
def legacyGet (st : LegacyConversionTable) (name : String) :
    Except String (List (String × RawUnit)) :=
  if st.names.contains name then .ok st.tbl
  else .error ("Conversion table \x27" ++ name ++ "\x27 not registered")

/-! ### Concrete tables from the package's test suite -/

/-- The typography table of `conversion-table-converts.test.js`. -/
def typRaw : List (String × RawUnit) :=
  [("c", { scale := some ⟨12789065750000, 12⟩, minor := some "d",
           term := some (.str "Cicero(s)") }),
   ("mm", { scale := some ⟨2834645669291, 12⟩, term := some (.str "Millimeter(s)") }),
   ("cm", { scale := some ⟨28346456692914, 12⟩, term := some (.str "Centimeter(s)") }),
   ("d", { scale := some ⟨1065543307019, 12⟩, term := some (.str "Didot(s)") }),
   ("i", { aliasKey := some "in" }),
   ("in", { scale := some ⟨720, 1⟩, term := some (.str "Inch(es)") }),
   ("p", { scale := some ⟨120, 1⟩, minor := some "pt", term := some (.str "Pica(s)") }),
   ("pt", { base := true, term := some (.str "Point(s)") })]

/-- The `ConversionTable` instance `factory` builds from `typRaw`. -/
def typCT : ConversionTable :=
  match factory typRaw "typography" with
  | .ok t => t
  | .error _ => ⟨[], "", [], "", 6⟩


/-- The sub-record contribution added into the base-unit accumulator by
`convert`. -/
def subContrib : Option SubParse → Q
  | some s => s.value * s.scale + s.bias
  | none => 0

/-! ### Small concrete tables used as witnesses and counterexamples -/

/-- A table whose keys include a numeric string `"5"` used as an alias of
`"in"`. -/
def numAliasRaw : List (String × RawUnit) :=
  [("5", { aliasKey := some "in" }),
   ("in", { scale := some ⟨720, 1⟩ }),
   ("pt", { base := true })]

def numAliasCT : ConversionTable :=
  match factory numAliasRaw "numalias" with
  | .ok t => t
  | .error _ => ⟨[], "", [], "", 6⟩

/-- A zero-base table containing a dangling alias. -/
def danglingRaw : List (String × RawUnit) :=
  [("x", { aliasKey := some "ghost" })]

/-- A table with a dangling alias (`"k"` points at the absent `"ghost"`)
that is masked because the earlier entry `"j"` aliases `"k"`, overwriting
`"k"`'s alias field in the raw table before `"k"` is processed. -/
def ghostRaw : List (String × RawUnit) :=
  [("j", { aliasKey := some "k" }),
   ("k", { aliasKey := some "ghost" }),
   ("pt", { base := true })]

/-- A table whose scales are all integral (`scale = 100` and the base). -/
def intScalesRaw : List (String × RawUnit) :=
  [("m", { scale := some ⟨100, 0⟩ }),
   ("cm", { base := true })]

/-- `intScalesRaw` extended with a unit whose scale has one decimal digit. -/
def intScalesExtRaw : List (String × RawUnit) :=
  intScalesRaw ++ [("x", { scale := some ⟨15, 1⟩ })]

/-- A table whose scale `0.5555555555555556` (the 16 shortest digits of the
double `5/9`) exceeds 15 decimal digits before rounding. -/
def repScaleRaw : List (String × RawUnit) :=
  [("f", { scale := some ⟨5555555555555556, 16⟩ }),
   ("c", { base := true })]

/-- A table with no `base: true` entry. -/
def noBaseRaw : List (String × RawUnit) :=
  [("m", { scale := some ⟨100, 0⟩ })]

/-- A table with two `base: true` entries (`"a"` first, `"c"` second). -/
def dupBaseRaw : List (String × RawUnit) :=
  [("a", { base := true }),
   ("b", { scale := some ⟨120, 1⟩ }),
   ("c", { base := true })]

/-- A table with two `base: true` entries whose first is keyed by the empty
string: recording `""` leaves the source's falsy `''` sentinel unarmed, so
the second base entry raises no duplicate error and normalization
succeeds. -/
def emptyKeyTwoBaseRaw : List (String × RawUnit) :=
  [("", { base := true }),
   ("x", { base := true })]

/-- A table whose sole `base: true` entry is keyed by the empty string: the
recorded base key is indistinguishable from the source's `''` sentinel, so
the final `if (!baseKey)` test reports the no-base error. -/
def emptyKeyBaseRaw : List (String × RawUnit) :=
  [("", { base := true })]

/-- A registry holding the typography table under the name `"typography"`. -/
def mgrTyp : ConversionTableManager :=
  (register emptyManager "typography" typRaw false).2

def rawA : List (String × RawUnit) := [("x", { base := true })]

def rawB : List (String × RawUnit) := [("y", { base := true })]

/-! ### Predicates used by the normalization invariants -/

/-- Whether the entry stored under key `k` is flagged `base: true`. -/
def baseOf (tbl : List (String × RawUnit)) (k : String) : Bool :=
  ((alookup tbl k).map RawUnit.base).getD false

/-- The view of a raw table that normalization steps never change: key order
and each entry's `base` flag and `scale` (mutation touches only `alias`
fields). -/
def tblView (tbl : List (String × RawUnit)) (k : String) : Option (Bool × Option DecNum) :=
  (alookup tbl k).map (fun u => (u.base, u.scale))

/-- Every alias field of the table points at a present key. -/
def aliasClosed (tbl : List (String × RawUnit)) : Prop :=
  ∀ kv ∈ tbl, ∀ a : String, kv.2.aliasKey = some a → a ∈ tbl.map Prod.fst

/-- Every scale of the table is integral after rounding (no decimal
digits). -/
def intScales (tbl : List (String × RawUnit)) : Prop :=
  ∀ kv ∈ tbl, decPrec (decRound (kv.2.scale.getD decOne) 15) = 0

/-- Every alias field of the accumulated normalized table points at a key of
the (evolving) raw table. -/
def accClosed (st : NormState) : Prop :=
  ∀ kv ∈ st.acc, ∀ a : String, kv.2.aliasKey = some a → a ∈ st.tbl.map Prod.fst

/-- No entry of the table aliases the key `k`. -/
def noIncoming (tbl : List (String × RawUnit)) (k : String) : Prop :=
  ∀ kv ∈ tbl, kv.2.aliasKey ≠ some k

/-! ## Lemmas about association lists -/

theorem alookup_aupdate_of_ne {α : Type} (l : List (String × α)) (b a : String) (v : α)
    (h : a ≠ b) : alookup (aupdate l b v) a = alookup l a := by
  induction l with
  | nil => rfl
  | cons kv rest ih =>
      obtain ⟨k0, v0⟩ := kv
      by_cases hk : k0 = b
      · subst hk
        simp only [aupdate, if_pos rfl]
        simp [alookup, Ne.symm h]
      · simp only [aupdate, if_neg hk]
        by_cases hka : k0 = a <;> simp [alookup, hka, ih]

theorem alookup_append_right_of_ne {α : Type} (l : List (String × α)) (b a : String) (v : α)
    (h : a ≠ b) : alookup (l ++ [(b, v)]) a = alookup l a := by
  induction l with
  | nil => simp [alookup, Ne.symm h]
  | cons kv rest ih =>
      obtain ⟨k0, v0⟩ := kv
      by_cases hka : k0 = a <;> simp [alookup, hka, ih]

theorem alookup_upsert_of_ne {α : Type} (l : List (String × α)) (b a : String) (v : α)
    (h : a ≠ b) : alookup (upsert l b v) a = alookup l a := by
  unfold upsert
  by_cases hs : (alookup l b).isSome
  · simp [hs, alookup_aupdate_of_ne _ _ _ _ h]
  · simp [hs, alookup_append_right_of_ne _ _ _ _ h]

/-! ## Claim C1: the conversion formula -/

/-- Claim C1: for every successfully parsed input and every desired unit
present in the table, `convert` computes
`valueInBase = main.value * main.scale + main.bias`, adds
`sub.value * sub.scale + sub.bias` to the same accumulator when a sub record
is present, and returns
`{unit := desiredUnit, value := (valueInBase - desired.bias) / desired.scale}`;
in particular, on the typography table `convert "2in" "pt"` returns
`{unit := "pt", value := 144}`. -/
theorem claim_C1 :
    (∀ (input u : String) (ct : ConversionTable) (p : ParseResult) (d : NormalizedUnit),
        parse input ct = .ok p → alookup ct.table u = some d →
        convert input u ct = .ok ⟨u, (valueInBase p - d.bias.toQ) / d.scale.toQ⟩) ∧
      (∀ p : ParseResult,
        valueInBase p = p.main.value * p.main.scale + p.main.bias +
            (match p.sub with
             | some s => s.value * s.scale + s.bias
             | none => 0) ∨
          (valueInBase p = p.main.value * p.main.scale + p.main.bias ∧ p.sub = none)) ∧
      convert "2in" "pt" typCT = .ok ⟨"pt", 144⟩ := by
  refine ⟨?_, ?_, by decide⟩
  · intro input u ct p d hp hd
    simp only [convert, hp, hd]
  · intro p
    cases hs : p.sub with
    | none => exact Or.inr ⟨by simp [valueInBase, hs], rfl⟩
    | some s => exact Or.inl (by simp [valueInBase, hs])

/-- Witness for C1 at `input = "10cm"`, `desired = "pt"` on the typography
table, discharging both hypotheses of the first conjunct at concrete
values. -/
theorem claim_C1_witness :
    convert "10cm" "pt" typCT = .ok ⟨"pt", (14173228346457 : Q) / 50000000000⟩ := by
  have h := claim_C1.1 "10cm" "pt" typCT
    ⟨⟨"cm", 10, (28346456692914 : Q) / 1000000000000, 0⟩, none, "pt"⟩
    ⟨true, ⟨1, 0⟩, ⟨0, 0⟩, none, none, some ("Point", "Points")⟩
    (by decide) (by decide)
  rw [h]; decide

/-! ## Claim C7: a failed registration never overwrites -/

/-- Claim C7: for every registry state and every name under which a table is
already registered, a `register` call for that name whose `factory` stage
(normalization or pattern building) fails leaves the registry unchanged, and
the previously registered table stays retrievable under that name. -/
theorem claim_C7 (m : ConversionTableManager) (name : String)
    (raw : List (String × RawUnit)) (force : Bool) (t : ConversionTable) (e : String)
    (hreg : alookup m.tables name = some t) (hf : factory raw name = .error e) :
    (register m name raw force).2 = m ∧
      getTable (register m name raw force).2 name = .ok t := by
  have h2 : (register m name raw force).2 = m := by
    unfold register
    cases force <;> simp [hreg, hf]
  exact ⟨h2, by rw [h2]; simp [getTable, hreg]⟩

/-- Witness for C7: re-registering (with force) a base-less table under
`"typography"` fails and leaves the original table in place. -/
theorem claim_C7_witness :
    (register mgrTyp "typography" noBaseRaw true).2 = mgrTyp ∧
      getTable (register mgrTyp "typography" noBaseRaw true).2 "typography" = .ok typCT := by
  exact claim_C7 mgrTyp "typography" noBaseRaw true typCT
    "No Base Key declared in table: typography" (by decide) (by decide)

/-! ## Claim C8: registrations under distinct names do not interfere -/

/-- Claim C8 (amended): for the `ConversionTableManager` registry, registering
(or force re-registering) a table under name `b` leaves the table retrievable
under any other name `a` unchanged — registered names never share state.
(The repository's legacy singleton `ConversionTable` registry violates the
original claim; see the counterexample.) -/
theorem claim_C8 (m : ConversionTableManager) (a b : String)
    (raw : List (String × RawUnit)) (force : Bool) (hab : a ≠ b) :
    alookup ((register m b raw force).2).tables a = alookup m.tables a := by
  unfold register
  by_cases hc : (alookup m.tables b).isSome && !force
  · simp [hc]
  · simp only [hc, Bool.false_eq_true, if_false]
    cases hfac : factory raw b with
    | error e => rfl
    | ok inst => simpa using alookup_upsert_of_ne m.tables b a inst hab

/-- Witness for C8: registering `rawB` under `"b"` leaves the table under
`"typography"` unchanged. -/
theorem claim_C8_witness :
    alookup ((register mgrTyp "b" rawB false).2).tables "typography" =
      alookup mgrTyp.tables "typography" :=
  claim_C8 mgrTyp "typography" "b" rawB false (by decide)

/-- Counterexample for C8 as stated: in the repository's legacy singleton
registry, every registered name wraps the same mutable instance, so
registering a table under `"b"` changes the table retrieved under `"a"`. -/
theorem claim_C8_counterexample :
    legacyGet (legacyRegister legacyEmpty "a" rawA false).2 "a" =
        .ok (legacyNormalizeTable rawA) ∧
      legacyGet (legacyRegister (legacyRegister legacyEmpty "a" rawA false).2 "b" rawB false).2
          "a" = .ok (legacyNormalizeTable rawB) ∧
      legacyNormalizeTable rawB ≠ legacyNormalizeTable rawA := by
  refine ⟨by decide, by decide, by decide⟩

/-! ## Lemmas about the pattern matcher -/

theorem findSome?_cons_some {α β : Type} {f : α → Option β} {a : α} {l : List α} {b : β}
    (h : f a = some b) : (a :: l).findSome? f = some b := by
  simp [List.findSome?_cons, h]

theorem findSome?_eq_of_unique {α β : Type} [DecidableEq α] {f : α → Option β}
    {l : List α} {a0 : α} {b : β} (hmem : a0 ∈ l) (ha : f a0 = some b)
    (hother : ∀ a ∈ l, a ≠ a0 → f a = none) : l.findSome? f = some b := by
  induction l with
  | nil => cases hmem
  | cons x xs ih =>
      by_cases hx : x = a0
      · subst hx; exact findSome?_cons_some ha
      · have hnone : f x = none := hother x (by simp) hx
        have hmem' : a0 ∈ xs := by
          cases List.mem_cons.mp hmem with
          | inl h => exact absurd h.symm hx
          | inr h => exact h
        simp only [List.findSome?_cons, hnone]
        exact ih hmem' (fun a hh => hother a (List.mem_cons_of_mem x hh))

theorem orElse_some {α : Type} (a : α) (f : Unit → Option α) :
    (some a).orElse f = some a := rfl

theorem orElse_none {α : Type} (f : Unit → Option α) :
    (Option.none).orElse f = f () := rfl

theorem ws_not_digit {c : Char} (h : isWsCh c = true) : isDigitCh c = false := by
  simp only [isWsCh, Bool.or_eq_true, beq_iff_eq] at h
  rcases h with ((((((h | h) | h) | h) | h) | h) | h) <;> subst h <;> decide

theorem digit_not_ws {c : Char} (h : isDigitCh c = true) : isWsCh c = false := by
  cases hw : isWsCh c
  · rfl
  · rw [ws_not_digit hw] at h; cases h

theorem dropLeadingWs_eq_self {l : List Char}
    (h : ∀ c ∈ l, isWsCh c = false) : dropLeadingWs l = l := by
  cases l with
  | nil => rfl
  | cons c cs => simp [dropLeadingWs, h c (by simp)]

theorem trimChars_eq_self {l : List Char}
    (h : ∀ c ∈ l, isWsCh c = false) : trimChars l = l := by
  unfold trimChars
  rw [dropLeadingWs_eq_self h]
  rw [dropLeadingWs_eq_self (fun c hc => h c (List.mem_reverse.mp hc))]
  exact List.reverse_reverse l

theorem wsRun_eq_zero {l : List Char} (h : ∀ c ∈ l, isWsCh c = false) : wsRun l = 0 := by
  cases l with
  | nil => rfl
  | cons c cs => simp [wsRun, h c (by simp)]

theorem wsSplits_eq_self {l : List Char} (h : ∀ c ∈ l, isWsCh c = false) :
    wsSplits l = [l] := by
  simp [wsSplits, wsRun_eq_zero h]

theorem digitRun_eq_length {v : List Char} (h : ∀ c ∈ v, isDigitCh c = true) :
    digitRun v = v.length := by
  induction v with
  | nil => rfl
  | cons c cs ih =>
      simp [digitRun, h c (by simp), ih (fun x hx => h x (List.mem_cons_of_mem c hx))]

theorem digitRun_eq_zero {l : List Char} (h : ∀ c ∈ l, isDigitCh c = false) :
    digitRun l = 0 := by
  cases l with
  | nil => rfl
  | cons c cs => simp [digitRun, h c (by simp)]

theorem digitRun_append_stop {v rest : List Char} (hv : ∀ c ∈ v, isDigitCh c = true)
    (hrest : ∀ c ∈ rest, isDigitCh c = false) : digitRun (v ++ rest) = v.length := by
  induction v with
  | nil =>
      simpa using digitRun_eq_zero hrest
  | cons c cs ih =>
      simp [digitRun, hv c (by simp), ih (fun x hx => hv x (List.mem_cons_of_mem c hx))]

theorem fracSplits_eq_nil {v rest : List Char} (hrest : ∀ c ∈ rest, isDigitCh c = false) :
    fracSplits v rest = [] := by
  cases rest with
  | nil => rfl
  | cons c r2 =>
      by_cases hc : c = '.'
      · subst hc
        have hz : digitRun r2 = 0 := by
          cases r2 with
          | nil => rfl
          | cons c2 cs2 => simp [digitRun, hrest c2 (by simp)]
        simp [fracSplits, hz]
      · simp [fracSplits, hc]

theorem numSplits_first {v rest : List Char} (hv : v ≠ [])
    (hvd : ∀ c ∈ v, isDigitCh c = true) (hrest : ∀ c ∈ rest, isDigitCh c = false) :
    ∃ tl, numSplits (v ++ rest) = (v, rest) :: tl := by
  have hrun : digitRun (v ++ rest) = v.length := digitRun_append_stop hvd hrest
  obtain ⟨m, hm⟩ : ∃ m, v.length = m + 1 := by
    cases hv2 : v with
    | nil => exact absurd hv2 hv
    | cons c cs => exact ⟨cs.length, by simp [hv2]⟩
  have hr : List.range v.length = 0 :: (List.range m).map Nat.succ := by
    rw [hm, List.range_succ_eq_map]
  unfold numSplits
  simp only [hrun]
  rw [hr]
  simp only [List.flatMap_cons, Nat.sub_zero, List.take_left, List.drop_left]
  rw [fracSplits_eq_nil hrest]
  exact ⟨_, rfl⟩

theorem matchTail_nil : matchTail [] = some none := by decide

theorem matchTail_cons_none {c : Char} {r : List Char} (hd : isDigitCh c = false)
    (hw : isWsCh c = false) : matchTail (c :: r) = none := by
  have h1 : wsSplits (c :: r) = [c :: r] := by simp [wsSplits, wsRun, hw]
  have h2 : numSplits (c :: r) = [] := by simp [numSplits, digitRun, hd]
  unfold matchTail
  rw [h1]
  simp [List.findSome?_cons, List.findSome?_nil, h2, allWs, hw, orElse_none]

theorem eq_take_of_isPrefixOf {u s : List Char} (h : u.isPrefixOf s = true) :
    u = s.take u.length ∧ u.length ≤ s.length := by
  rw [List.isPrefixOf_iff_prefix] at h
  exact ⟨List.prefix_iff_eq_take.mp h, h.length_le⟩

theorem matchUnits_self {units : List (List Char)} {A : List Char}
    (hAd : ∀ c ∈ A, isDigitCh c = false) (hAw : ∀ c ∈ A, isWsCh c = false)
    (hmem : A ∈ units) : matchUnits units A = some (some A, none) := by
  unfold matchUnits
  have hself :
      (if A.isPrefixOf A then
          (matchTail (A.drop A.length)).map (fun mv => (some A, mv))
        else none) = some (some A, none) := by
    rw [if_pos (by rw [List.isPrefixOf_iff_prefix])]
    rw [List.drop_length, matchTail_nil]
    rfl
  have hother : ∀ u ∈ units, u ≠ A →
      (if u.isPrefixOf A then
          (matchTail (A.drop u.length)).map (fun mv => (some u, mv))
        else none) = none := by
    intro u hu hne
    by_cases hp : u.isPrefixOf A = true
    · obtain ⟨heq, hlen⟩ := eq_take_of_isPrefixOf hp
      have hlt : u.length < A.length := by
        rcases Nat.lt_or_ge u.length A.length with h | h
        · exact h
        · exfalso
          apply hne
          rw [heq, show u.length = A.length from Nat.le_antisymm hlen h, List.take_length]
      cases hdrop : A.drop u.length with
      | nil =>
          exfalso
          have := List.drop_eq_nil_iff.mp hdrop
          omega
      | cons c r =>
          have hcA : c ∈ A := List.mem_of_mem_drop (show c ∈ List.drop u.length A by rw [hdrop]; simp)
          rw [if_pos hp]
          rw [matchTail_cons_none (hAd c hcA) (hAw c hcA)]
          rfl
    · rw [if_neg (by simpa using hp)]
  rw [findSome?_eq_of_unique hmem hself hother]
  rfl

theorem isPrefixOf_nil_right {u : List Char} (h : u ≠ []) : u.isPrefixOf [] = false := by
  cases u with
  | nil => exact absurd rfl h
  | cons c cs => rfl

theorem matchUnits_nil_input {units : List (List Char)}
    (hne : ∀ u ∈ units, u ≠ ([] : List Char)) : matchUnits units [] = some (none, none) := by
  unfold matchUnits
  have hnone : (units.findSome? fun u =>
      if u.isPrefixOf ([] : List Char) then
        (matchTail (List.drop u.length [])).map (fun mv => (some u, mv))
      else none) = none := by
    rw [List.findSome?_eq_none_iff]
    intro u hu
    rw [if_neg (by simp [isPrefixOf_nil_right (hne u hu)])]
  rw [hnone, orElse_none, matchTail_nil]
  rfl

/-- The central match computation: matching `v ++ rest` (a digit token
followed by a non-digit, non-whitespace remainder) captures `v` as the major
value and hands `rest` to the unit alternation. -/
theorem jsMatch_digits_append {units : List (List Char)} {v rest : List Char}
    {r : Option (List Char) × Option (List Char)} (hv : v ≠ [])
    (hvd : ∀ c ∈ v, isDigitCh c = true) (hrd : ∀ c ∈ rest, isDigitCh c = false)
    (hrw : ∀ c ∈ rest, isWsCh c = false) (hmu : matchUnits units rest = some r) :
    jsMatch units (v ++ rest) = some ⟨v, r.1, r.2⟩ := by
  have hnws : ∀ c ∈ v ++ rest, isWsCh c = false := by
    intro c hc
    cases List.mem_append.mp hc with
    | inl h => exact digit_not_ws (hvd c h)
    | inr h => exact hrw c h
  simp only [jsMatch]
  rw [trimChars_eq_self hnws, wsSplits_eq_self hnws]
  obtain ⟨tl, htl⟩ := numSplits_first hv hvd hrd
  apply findSome?_cons_some
  rw [htl]
  apply findSome?_cons_some
  rw [wsSplits_eq_self hrw]
  apply findSome?_cons_some
  rw [hmu]
  rfl

/-! ## Lemmas about the length-descending sort -/

theorem mem_insertDesc {x y : String} {l : List String} :
    y ∈ insertDesc x l ↔ y = x ∨ y ∈ l := by
  induction l with
  | nil => simp [insertDesc]
  | cons z zs ih =>
      by_cases h : z.length ≤ x.length
      · simp only [insertDesc, if_pos h, List.mem_cons]
      · simp only [insertDesc, if_neg h, List.mem_cons, ih]
        tauto

theorem mem_sortDesc {x : String} {l : List String} : x ∈ sortDesc l ↔ x ∈ l := by
  induction l with
  | nil => simp [sortDesc]
  | cons y ys ih => simp [sortDesc, mem_insertDesc, ih]

theorem pairwise_insertDesc {x : String} {l : List String}
    (h : l.Pairwise (fun a b => b.length ≤ a.length)) :
    (insertDesc x l).Pairwise (fun a b => b.length ≤ a.length) := by
  induction l with
  | nil => simp [insertDesc]
  | cons z zs ih =>
      rcases List.pairwise_cons.mp h with ⟨hz, hzs⟩
      by_cases hle : z.length ≤ x.length
      · simp only [insertDesc, if_pos hle]
        refine List.pairwise_cons.mpr ⟨?_, h⟩
        intro b hb
        rcases List.mem_cons.mp hb with rfl | hbmem
        · exact hle
        · exact le_trans (hz b hbmem) hle
      · simp only [insertDesc, if_neg hle]
        refine List.pairwise_cons.mpr ⟨?_, ih hzs⟩
        intro b hb
        rcases mem_insertDesc.mp hb with rfl | hbmem
        · omega
        · exact hz b hbmem

theorem pairwise_sortDesc (l : List String) :
    (sortDesc l).Pairwise (fun a b => b.length ≤ a.length) := by
  induction l with
  | nil => simp [sortDesc]
  | cons x xs ih => exact pairwise_insertDesc ih

/-! ## Claim C2: prefix safety -/

/-- Claim C2: the pattern's unit alternation is the table's key list sorted
by descending string length, and for every table whose key set contains both
`"c"` and `"cm"` (in fact whenever it contains `"cm"`), matching the input
`"10cm"` captures the major unit `"cm"` — never `"c"` with a dangling `"m"` —
and `parse` resolves it accordingly. -/
theorem claim_C2 :
    (∀ (table : List (String × NormalizedUnit)) (nm : String) (us : List String),
        buildRegexString table nm = .ok us →
        us.Pairwise (fun a b => b.length ≤ a.length) ∧
          ∀ k : String, k ∈ us ↔ k ∈ table.map Prod.fst) ∧
      (∀ units : List (List Char), ['c', 'm'] ∈ units →
        jsMatch units ('1' :: '0' :: 'c' :: 'm' :: []) =
          some ⟨['1', '0'], some ['c', 'm'], none⟩) ∧
      (∀ (ct : ConversionTable) (e : NormalizedUnit),
        "cm".data ∈ ct.regexUnits.map String.data →
        alookup ct.table "cm" = some e → e.aliasKey = none →
        parse "10cm" ct =
          .ok ⟨⟨"cm", parseNum ['1', '0'], e.scale.toQ, e.bias.toQ⟩, none, ct.base⟩) := by
  refine ⟨?_, ?_, ?_⟩
  · intro table nm us h
    unfold buildRegexString at h
    by_cases he : (table.map Prod.fst).isEmpty
    · simp [he] at h
    · simp only [he, if_false] at h
      cases h
      exact ⟨pairwise_sortDesc _, fun k => mem_sortDesc⟩
  · intro units hmem
    have h := @jsMatch_digits_append units ['1', '0'] ['c', 'm'] _
      (by decide) (by decide) (by decide) (by decide)
      (matchUnits_self (by decide) (by decide) hmem)
    simpa using h
  · intro ct e hmem hlook halias
    have hm : jsMatch (ct.regexUnits.map String.data) "10cm".data =
        some ⟨['1', '0'], some ['c', 'm'], none⟩ := by
      exact @jsMatch_digits_append _ ['1', '0'] ['c', 'm'] _
        (by decide) (by decide) (by decide) (by decide)
        (matchUnits_self (by decide) (by decide) hmem)
    simp only [parse, hm]
    simp only [Option.map_some']
    rw [show String.mk ['c', 'm'] = "cm" from by decide]
    simp only [hlook, halias, orElse_some]
    rw [if_neg (by decide : ¬("cm" : String) = "")]

/-- Witness for C2 on the typography table (which contains both `"c"` and
`"cm"`). -/
theorem claim_C2_witness :
    ((typCT.regexUnits.Pairwise (fun a b => b.length ≤ a.length)) ∧
        ∀ k : String, k ∈ typCT.regexUnits ↔ k ∈ typCT.table.map Prod.fst) ∧
      jsMatch (typCT.regexUnits.map String.data) ('1' :: '0' :: 'c' :: 'm' :: []) =
        some ⟨['1', '0'], some ['c', 'm'], none⟩ ∧
      parse "10cm" typCT =
        .ok ⟨⟨"cm", parseNum ['1', '0'],
          (⟨28346456692914, 12⟩ : DecNum).toQ, (⟨0, 0⟩ : DecNum).toQ⟩, none, "pt"⟩ := by
  refine ⟨?_, ?_, ?_⟩
  · exact claim_C2.1 typCT.table "typography" typCT.regexUnits (by decide)
  · exact claim_C2.2.1 (typCT.regexUnits.map String.data) (by decide)
  · exact claim_C2.2.2 typCT ⟨false, ⟨28346456692914, 12⟩, ⟨0, 0⟩, none, none,
      some ("Centimeter", "Centimeters")⟩ (by decide) (by decide) (by decide)

/-! ## Claim C5: unitless input resolves to the base unit -/

/-- Claim C5: a purely numeric input produces a match with no unit capture
(first conjunct), and for every input whose match captures no unit, `parse`
resolves the unit to the table's base unit, taking scale and bias from the
base entry (second conjunct); in particular
`convert "10" "pt"` on the typography table returns `{unit := "pt", value := 10}`. -/
theorem claim_C5 :
    (∀ (units : List (List Char)) (v : List Char), v ≠ [] →
        (∀ c ∈ v, isDigitCh c = true) → (∀ u ∈ units, u ≠ []) →
        jsMatch units v = some ⟨v, none, none⟩) ∧
      (∀ (ct : ConversionTable) (input : String) (g : MatchGroups) (e : NormalizedUnit),
        jsMatch (ct.regexUnits.map String.data) input.data = some g →
        g.majorUnit = none →
        alookup ct.table ct.base = some e → e.aliasKey = none →
        parse input ct =
          .ok ⟨⟨ct.base, parseNum g.majorValue, e.scale.toQ, e.bias.toQ⟩,
            (match g.minorValue with
             | some mv => some ⟨e.minor, parseNum mv, subScale ct e.minor, subBias ct e.minor⟩
             | none => none), ct.base⟩) ∧
      convert "10" "pt" typCT = .ok ⟨"pt", 10⟩ := by
  refine ⟨?_, ?_, by decide⟩
  · intro units v hv hvd hunits
    have h := @jsMatch_digits_append units v [] _
      hv hvd (by simp) (by simp) (matchUnits_nil_input hunits)
    simpa using h
  · intro ct input g e hjs hmaj hbase halias
    simp only [parse, hjs, hmaj, Option.map_none', orElse_none, hbase, halias]

/-- Witness for C5: the typography table, input `"10"`. -/
theorem claim_C5_witness :
    jsMatch (typCT.regexUnits.map String.data) ('1' :: '0' :: []) =
        some ⟨['1', '0'], none, none⟩ ∧
      parse "10" typCT =
        .ok ⟨⟨"pt", parseNum ['1', '0'], (⟨1, 0⟩ : DecNum).toQ, (⟨0, 0⟩ : DecNum).toQ⟩,
          none, "pt"⟩ := by
  constructor
  · exact claim_C5.1 (typCT.regexUnits.map String.data) ['1', '0'] (by decide) (by decide)
      (by decide)
  · exact claim_C5.2.1 typCT "10" ⟨['1', '0'], none, none⟩
      ⟨true, ⟨1, 0⟩, ⟨0, 0⟩, none, none, some ("Point", "Points")⟩
      (by decide) (by decide) (by decide) (by decide)

/-! ## Claim C6: alias transparency -/

/-- Counterexample for C6 as stated: with an alias entry whose key is the
numeric string `"5"` (pointing at `"in"`), parsing `"1" ++ "5"` and
`"1" ++ "in"` do not agree: the greedy major-value capture swallows `"15"`
whole, so the alias key is never matched as a unit and the input falls back
to the base unit. -/
theorem claim_C6_counterexample :
    (alookup numAliasCT.table "5").map (fun u => u.aliasKey) = some (some "in") ∧
      parse "15" numAliasCT = .ok ⟨⟨"pt", 15, 1, 0⟩, none, "pt"⟩ ∧
      parse "1in" numAliasCT = .ok ⟨⟨"in", 1, 72, 0⟩, none, "pt"⟩ ∧
      (parse "15" numAliasCT).toOption.map (fun r => r.main.scale) ≠
        (parse "1in" numAliasCT).toOption.map (fun r => r.main.scale) := by
  refine ⟨by decide, by decide, by decide, by decide⟩

/-- Claim C6 (amended): for every table containing an alias entry `A`
pointing at key `T`, where `A` and `T` are nonempty unit names made of
non-digit, non-whitespace characters (so that the unit alternation actually
captures them) and `T` resolves to a unit entry that is not itself an alias
to a third key, parsing `v ++ A` and parsing `v ++ T` for a numeric literal
`v` yield identical `main.scale`, `main.bias`, and resolved `main.unit`
(the alias target's key `T`); the alias entry's own stored scale/bias are
not consulted. -/
theorem claim_C6 (ct : ConversionTable) (A T : String) (uA uT : NormalizedUnit)
    (v : List Char) (hv : v ≠ []) (hvd : ∀ c ∈ v, isDigitCh c = true)
    (hAd : ∀ c ∈ A.data, isDigitCh c = false) (hAw : ∀ c ∈ A.data, isWsCh c = false)
    (hTne : T.data ≠ []) (hTd : ∀ c ∈ T.data, isDigitCh c = false)
    (hTw : ∀ c ∈ T.data, isWsCh c = false)
    (hAmem : A.data ∈ ct.regexUnits.map String.data)
    (hTmem : T.data ∈ ct.regexUnits.map String.data)
    (hlA : alookup ct.table A = some uA) (haA : uA.aliasKey = some T)
    (hlT : alookup ct.table T = some uT) (haT : uT.aliasKey = none ∨ uT.aliasKey = some T) :
    parse (String.mk (v ++ A.data)) ct =
        .ok ⟨⟨T, parseNum v, uT.scale.toQ, uT.bias.toQ⟩, none, ct.base⟩ ∧
      parse (String.mk (v ++ T.data)) ct =
        .ok ⟨⟨T, parseNum v, uT.scale.toQ, uT.bias.toQ⟩, none, ct.base⟩ := by
  constructor
  · have hm : jsMatch (ct.regexUnits.map String.data) (String.mk (v ++ A.data)).data =
        some ⟨v, some A.data, none⟩ :=
      jsMatch_digits_append hv hvd hAd hAw (matchUnits_self hAd hAw hAmem)
    simp only [parse, hm, Option.map_some']
    rw [show String.mk A.data = A from rfl]
    simp only [hlA, haA, orElse_some, hlT]
  · have hm : jsMatch (ct.regexUnits.map String.data) (String.mk (v ++ T.data)).data =
        some ⟨v, some T.data, none⟩ :=
      jsMatch_digits_append hv hvd hTd hTw (matchUnits_self hTd hTw hTmem)
    simp only [parse, hm, Option.map_some']
    rw [show String.mk T.data = T from rfl]
    simp only [hlT, orElse_some]
    cases haT with
    | inl h =>
        simp only [h]
        rw [if_neg (show ¬T = "" from fun hh => hTne (by rw [hh]))]
    | inr h => simp only [h, hlT]

/-- Witness for C6: `A = "i"`, `T = "in"`, `v = "2"` on the typography
table — `parse "2i"` and `parse "2in"` agree on the resolved unit, scale,
and bias. -/
theorem claim_C6_witness :
    parse "2i" typCT =
        .ok ⟨⟨"in", parseNum ['2'], (⟨720, 1⟩ : DecNum).toQ, (⟨0, 0⟩ : DecNum).toQ⟩,
          none, "pt"⟩ ∧
      parse "2in" typCT =
        .ok ⟨⟨"in", parseNum ['2'], (⟨720, 1⟩ : DecNum).toQ, (⟨0, 0⟩ : DecNum).toQ⟩,
          none, "pt"⟩ := by
  have h := claim_C6 typCT "i" "in"
    ⟨false, ⟨720, 1⟩, ⟨0, 0⟩, some "in", none, some ("Inch", "Inches")⟩
    ⟨false, ⟨720, 1⟩, ⟨0, 0⟩, some "in", none, some ("Inch", "Inches")⟩
    ['2'] (by decide) (by decide) (by decide) (by decide) (by decide) (by decide)
    (by decide) (by decide) (by decide) (by decide) (by decide) (by decide)
    (Or.inr (by decide))
  exact h

/-! ## Claim C9: captured minor value without a declared minor unit -/

/-- Counterexample for C9 as stated: on the typography table, `"cm"` declares
no minor unit, yet parsing `"10cm5"` yields a sub record (unit `none`,
scale 1, bias 0) that is *not* identical to "no sub-unit": the captured `5`
is added to the base accumulator, so `convert "10cm5"` differs from
`convert "10cm"`. -/
theorem claim_C9_counterexample :
    parse "10cm5" typCT =
        .ok ⟨⟨"cm", 10, (⟨28346456692914, 12⟩ : DecNum).toQ, 0⟩,
          some ⟨none, 5, 1, 0⟩, "pt"⟩ ∧
      (parse "10cm5" typCT).toOption.map (fun r => r.sub) ≠
        (parse "10cm" typCT).toOption.map (fun r => r.sub) ∧
      convert "10cm5" "pt" typCT ≠ convert "10cm" "pt" typCT := by
  refine ⟨by decide, by decide, by decide⟩

/-- Claim C9 (amended): for every input in which the pattern captures a minor
value but the resolved main unit declares no `minor` key, `parse` returns a
result rather than an error, with the sub record defaulting to
`unit := none, scale := 1, bias := 0`; the captured minor value is therefore
carried (and later added, unscaled, into the base accumulator), which is not
identical to the absence of a sub-unit. -/
theorem claim_C9 (ct : ConversionTable) (input : String) (g : MatchGroups)
    (uL : List Char) (e : NormalizedUnit) (mv : List Char)
    (hjs : jsMatch (ct.regexUnits.map String.data) input.data = some g)
    (hmaj : g.majorUnit = some uL) (hne : uL ≠ [])
    (hlook : alookup ct.table (String.mk uL) = some e) (halias : e.aliasKey = none)
    (hminor : e.minor = none) (hmv : g.minorValue = some mv) :
    parse input ct =
      .ok ⟨⟨String.mk uL, parseNum g.majorValue, e.scale.toQ, e.bias.toQ⟩,
        some ⟨none, parseNum mv, 1, 0⟩, ct.base⟩ := by
  simp only [parse, hjs, hmaj, Option.map_some', hlook, orElse_some, halias, hmv, hminor]
  rw [if_neg (show ¬String.mk uL = "" from fun hh => hne (by
    have := congrArg String.data hh
    simpa using this))]
  simp [subScale, subBias]

/-- Witness for C9 at `"10cm5"` on the typography table. -/
theorem claim_C9_witness :
    parse "10cm5" typCT =
      .ok ⟨⟨"cm", parseNum ['1', '0'], (⟨28346456692914, 12⟩ : DecNum).toQ,
        (⟨0, 0⟩ : DecNum).toQ⟩, some ⟨none, parseNum ['5'], 1, 0⟩, "pt"⟩ := by
  have h := claim_C9 typCT "10cm5" ⟨['1', '0'], some ['c', 'm'], some ['5']⟩
    ['c', 'm'] ⟨false, ⟨28346456692914, 12⟩, ⟨0, 0⟩, none, none,
      some ("Centimeter", "Centimeters")⟩ ['5']
    (by decide) (by decide) (by decide) (by decide) (by decide) (by decide) (by decide)
  exact h

/-! ## Lemmas about the normalization loop -/

theorem alookup_isSome_iff_mem {α : Type} {l : List (String × α)} {k : String} :
    (alookup l k).isSome ↔ k ∈ l.map Prod.fst := by
  induction l with
  | nil => simp [alookup]
  | cons kv rest ih =>
      by_cases hk : kv.1 = k
      · simp [alookup, hk]
      · simp [alookup, hk, ih, Ne.symm hk]

theorem alookup_some_mem {α : Type} {l : List (String × α)} {k : String} {v : α}
    (h : alookup l k = some v) : (k, v) ∈ l := by
  induction l with
  | nil => simp [alookup] at h
  | cons kv rest ih =>
      by_cases hk : kv.1 = k
      · simp only [alookup, if_pos hk] at h
        cases h
        subst hk
        simp
      · simp only [alookup, if_neg hk] at h
        exact List.mem_cons_of_mem kv (ih h)

theorem aupdate_keys {α : Type} (l : List (String × α)) (k : String) (v : α) :
    (aupdate l k v).map Prod.fst = l.map Prod.fst := by
  induction l with
  | nil => rfl
  | cons kv rest ih =>
      by_cases hk : kv.1 = k <;> simp [aupdate, hk, ih]

theorem mem_aupdate {α : Type} {l : List (String × α)} {k : String} {v : α} {kv' : String × α}
    (h : kv' ∈ aupdate l k v) : kv' ∈ l ∨ kv' = (k, v) := by
  induction l with
  | nil => simp [aupdate] at h
  | cons kv rest ih =>
      by_cases hk : kv.1 = k
      · simp only [aupdate, if_pos hk] at h
        rcases List.mem_cons.mp h with rfl | hmem
        · right; rw [← hk]
        · left; exact List.mem_cons_of_mem kv hmem
      · simp only [aupdate, if_neg hk] at h
        rcases List.mem_cons.mp h with rfl | hmem
        · left; simp
        · rcases ih hmem with h2 | h2
          · left; exact List.mem_cons_of_mem kv h2
          · right; exact h2

theorem alookup_aupdate_self {α : Type} {l : List (String × α)} {k : String} {v0 : α} (v : α)
    (h : alookup l k = some v0) : alookup (aupdate l k v) k = some v := by
  induction l with
  | nil => simp [alookup] at h
  | cons kv rest ih =>
      by_cases hk : kv.1 = k
      · simp [aupdate, alookup, hk]
      · simp only [alookup, if_neg hk] at h
        simp [aupdate, alookup, hk, ih h]

theorem alookup_append_left {α : Type} {l : List (String × α)} {k : String} {v : α}
    (l2 : List (String × α)) (h : alookup l k = some v) : alookup (l ++ l2) k = some v := by
  induction l with
  | nil => simp [alookup] at h
  | cons kv rest ih =>
      by_cases hk : kv.1 = k
      · simp only [alookup, if_pos hk] at h
        simp [alookup, hk, h]
      · simp only [alookup, if_neg hk] at h
        simp [alookup, hk, ih h]

theorem aupdate_append_left {α : Type} {l : List (String × α)} {k : String} {v0 : α} (v : α)
    (l2 : List (String × α)) (h : alookup l k = some v0) :
    aupdate (l ++ l2) k v = aupdate l k v ++ l2 := by
  induction l with
  | nil => simp [alookup] at h
  | cons kv rest ih =>
      by_cases hk : kv.1 = k
      · simp [aupdate, hk]
      · simp only [alookup, if_neg hk] at h
        simp [aupdate, hk, ih h]

theorem checkBase_ok {key : String} {v0 : RawUnit} {bk bk' : String}
    (h : checkBase key v0 bk = .ok bk') :
    (v0.base = true ∧ bk = "" ∧ bk' = key) ∨ (v0.base = false ∧ bk' = bk) := by
  cases hb : v0.base with
  | true =>
      by_cases hbk : bk = ""
      · simp only [checkBase, hb, hbk] at h
        simp at h
        exact Or.inl ⟨rfl, hbk, h.symm⟩
      · simp [checkBase, hb, hbk] at h
  | false =>
      simp [checkBase, hb] at h
      exact Or.inr ⟨rfl, h.symm⟩

theorem checkBase_dup {key : String} {v0 : RawUnit} {bk : String}
    (hb : v0.base = true) (hbk : bk ≠ "") :
    checkBase key v0 bk =
      .error ("Duplicate Base Key in table: " ++ key ++ " collides with " ++ bk) := by
  simp [checkBase, hb, hbk]

theorem checkBase_eq_ok {key : String} {v0 : RawUnit} {bk : String}
    (h : v0.base = false ∨ bk = "") :
    checkBase key v0 bk = .ok (if v0.base then key else bk) := by
  cases hb : v0.base with
  | true =>
      rcases h with h | h
      · rw [hb] at h; cases h
      · subst h; simp [checkBase, hb]
  | false => simp [checkBase, hb]

theorem resolveAlias_ok {nm : String} {v0 v1 : RawUnit}
    {tbl tbl1 : List (String × RawUnit)}
    (h : resolveAlias nm v0 tbl = .ok (v1, tbl1)) :
    (v0.aliasKey = none ∧ v1 = v0 ∧ tbl1 = tbl) ∨
      (∃ a t, v0.aliasKey = some a ∧ alookup tbl a = some t ∧
        v1 = { t with aliasKey := some a } ∧
        tbl1 = aupdate tbl a { t with aliasKey := some a }) := by
  unfold resolveAlias at h
  cases ha : v0.aliasKey with
  | none =>
      simp only [ha, Except.ok.injEq, Prod.mk.injEq] at h
      exact Or.inl ⟨rfl, h.1.symm, h.2.symm⟩
  | some a =>
      simp only [ha] at h
      cases hl : alookup tbl a with
      | none => simp only [hl] at h; simp at h
      | some t =>
          simp only [hl, Except.ok.injEq, Prod.mk.injEq] at h
          exact Or.inr ⟨a, t, rfl, hl, h.1.symm, h.2.symm⟩

theorem resolveAlias_eq_none {nm : String} {v0 : RawUnit} {tbl : List (String × RawUnit)}
    (h : v0.aliasKey = none) : resolveAlias nm v0 tbl = .ok (v0, tbl) := by
  simp [resolveAlias, h]

theorem resolveAlias_eq_some {nm : String} {v0 t : RawUnit} {a : String}
    {tbl : List (String × RawUnit)} (h : v0.aliasKey = some a)
    (hl : alookup tbl a = some t) :
    resolveAlias nm v0 tbl =
      .ok ({ t with aliasKey := some a }, aupdate tbl a { t with aliasKey := some a }) := by
  simp [resolveAlias, h, hl]

theorem resolveAlias_eq_err {nm : String} {v0 : RawUnit} {a : String}
    {tbl : List (String × RawUnit)} (h : v0.aliasKey = some a)
    (hl : alookup tbl a = none) :
    resolveAlias nm v0 tbl =
      .error ("Error normalizing table: " ++ nm ++
        " - cannot set alias on missing target " ++ a) := by
  simp [resolveAlias, h, hl]

/-- Full characterization of a successful normalization step. -/
theorem normStep_ok {nm key : String} {st st' : NormState}
    (h : normStep nm key st = .ok st') :
    ∃ v0 v1 tbl1,
      alookup st.tbl key = some v0 ∧
      ((v0.aliasKey = none ∧ v1 = v0 ∧ tbl1 = st.tbl) ∨
        (∃ a t, v0.aliasKey = some a ∧ alookup st.tbl a = some t ∧
          v1 = { t with aliasKey := some a } ∧
          tbl1 = aupdate st.tbl a { t with aliasKey := some a })) ∧
      ((v0.base = true ∧ st.baseKey = "") ∨ v0.base = false) ∧
      st' = ⟨tbl1, st.acc ++ [(key, normUnitOf v1)],
        (if v0.base then key else st.baseKey),
        max st.maxPrec (decPrec (decRound (v1.scale.getD decOne) 15))⟩ := by
  unfold normStep at h
  cases hl : alookup st.tbl key with
  | none => simp only [hl] at h; simp at h
  | some v0 =>
      simp only [hl] at h
      cases hcb : checkBase key v0 st.baseKey with
      | error e => simp only [hcb] at h; simp at h
      | ok bk1 =>
          simp only [hcb] at h
          cases hra : resolveAlias nm v0 st.tbl with
          | error e => simp only [hra] at h; simp at h
          | ok p =>
              obtain ⟨v1, tbl1⟩ := p
              simp only [hra, Except.ok.injEq] at h
              refine ⟨v0, v1, tbl1, rfl, resolveAlias_ok hra, ?_, ?_⟩
              · rcases checkBase_ok hcb with ⟨hb, hbk, _⟩ | ⟨hb, _⟩
                · exact Or.inl ⟨hb, hbk⟩
                · exact Or.inr hb
              · rcases checkBase_ok hcb with ⟨hb, hbk, hbk'⟩ | ⟨hb, hbk'⟩ <;>
                  rw [← h] <;> subst hbk' <;> simp [hb]

/-- Forward evaluation of a successful step (no alias on the entry). -/
theorem normStep_eq_noalias {nm key : String} {st : NormState} {v0 : RawUnit}
    (hl : alookup st.tbl key = some v0) (hb : v0.base = false ∨ st.baseKey = "")
    (ha : v0.aliasKey = none) :
    normStep nm key st = .ok ⟨st.tbl, st.acc ++ [(key, normUnitOf v0)],
      (if v0.base then key else st.baseKey),
      max st.maxPrec (decPrec (decRound (v0.scale.getD decOne) 15))⟩ := by
  simp only [normStep, hl, checkBase_eq_ok hb, resolveAlias_eq_none ha]

/-- Forward evaluation of a successful step (alias resolved and written back
onto the raw table's target entry). -/
theorem normStep_eq_alias {nm key a : String} {st : NormState} {v0 t : RawUnit}
    (hl : alookup st.tbl key = some v0) (hb : v0.base = false ∨ st.baseKey = "")
    (ha : v0.aliasKey = some a) (ht : alookup st.tbl a = some t) :
    normStep nm key st = .ok ⟨aupdate st.tbl a { t with aliasKey := some a },
      st.acc ++ [(key, normUnitOf { t with aliasKey := some a })],
      (if v0.base then key else st.baseKey),
      max st.maxPrec (decPrec (decRound (t.scale.getD decOne) 15))⟩ := by
  simp only [normStep, hl, checkBase_eq_ok hb, resolveAlias_eq_some ha ht]

/-- A step on an entry flagged `base` fails with the duplicate-base error
when a non-empty (truthy) base key was already recorded. -/
theorem normStep_eq_dup {nm key b : String} {st : NormState} {v0 : RawUnit}
    (hl : alookup st.tbl key = some v0) (hb : v0.base = true)
    (hbk : st.baseKey = b) (hbne : b ≠ "") :
    normStep nm key st =
      .error ("Duplicate Base Key in table: " ++ key ++ " collides with " ++ b) := by
  subst hbk
  simp only [normStep, hl, checkBase_dup hb hbne]

theorem normLoop_append {nm : String} (l1 l2 : List String) (st : NormState) :
    normLoop nm (l1 ++ l2) st =
      match normLoop nm l1 st with
      | .error e => .error e
      | .ok st1 => normLoop nm l2 st1 := by
  induction l1 generalizing st with
  | nil => simp [normLoop]
  | cons k ks ih =>
      simp only [List.cons_append, normLoop]
      cases normStep nm k st with
      | error e => rfl
      | ok st1 => exact ih st1

theorem tblView_aupdate_alias {tbl : List (String × RawUnit)} {a : String} {t : RawUnit}
    (ht : alookup tbl a = some t) (k : String) :
    tblView (aupdate tbl a { t with aliasKey := some a }) k = tblView tbl k := by
  unfold tblView
  by_cases hk : k = a
  · subst hk
    rw [alookup_aupdate_self _ ht, ht]
    simp
  · rw [alookup_aupdate_of_ne _ _ _ _ hk]

/-- A successful step preserves the table's key list, `base`/`scale` fields,
never decreases the running precision maximum, and appends exactly the
processed key to the accumulator. -/
theorem normStep_view {nm key : String} {st st' : NormState}
    (h : normStep nm key st = .ok st') :
    st'.tbl.map Prod.fst = st.tbl.map Prod.fst ∧
      (∀ k, tblView st'.tbl k = tblView st.tbl k) ∧
      st.maxPrec ≤ st'.maxPrec ∧
      st'.acc.map Prod.fst = st.acc.map Prod.fst ++ [key] := by
  obtain ⟨v0, v1, tbl1, hl, hres, hbase, hst⟩ := normStep_ok h
  subst hst
  rcases hres with ⟨ha, hv1, htbl⟩ | ⟨a, t, ha, ht, hv1, htbl⟩ <;> subst htbl
  · exact ⟨rfl, fun k => rfl, Nat.le_max_left _ _, by simp⟩
  · exact ⟨aupdate_keys _ _ _, tblView_aupdate_alias ht, Nat.le_max_left _ _, by simp⟩

theorem baseOf_eq_of_tblView {tbl tbl' : List (String × RawUnit)}
    (h : ∀ k, tblView tbl' k = tblView tbl k) (k : String) :
    baseOf tbl' k = baseOf tbl k := by
  have h1 := congrArg (fun o => (o.map Prod.fst).getD false) (h k)
  simpa [tblView, baseOf, Option.map_map, Function.comp] using h1

theorem normStep_baseKey {nm key : String} {st st' : NormState}
    (h : normStep nm key st = .ok st') :
    (baseOf st.tbl key = true ∧ st.baseKey = "" ∧ st'.baseKey = key) ∨
      (baseOf st.tbl key = false ∧ st'.baseKey = st.baseKey) := by
  obtain ⟨v0, v1, tbl1, hl, hres, hbase, hst⟩ := normStep_ok h
  have hbval : baseOf st.tbl key = v0.base := by simp [baseOf, hl]
  subst hst
  rcases hbase with ⟨hb, hbk⟩ | hb
  · exact Or.inl ⟨by rw [hbval, hb], hbk, by simp [hb]⟩
  · exact Or.inr ⟨by rw [hbval, hb], by simp [hb]⟩

/-- A successful loop run preserves keys and the `base`/`scale` view, never
decreases the precision maximum, and appends exactly the processed keys. -/
theorem normLoop_view {nm : String} (keys : List String) :
    ∀ {st st' : NormState}, normLoop nm keys st = .ok st' →
      st'.tbl.map Prod.fst = st.tbl.map Prod.fst ∧
        (∀ k, tblView st'.tbl k = tblView st.tbl k) ∧
        st.maxPrec ≤ st'.maxPrec ∧
        st'.acc.map Prod.fst = st.acc.map Prod.fst ++ keys := by
  induction keys with
  | nil =>
      intro st st' h
      simp only [normLoop] at h
      cases h
      exact ⟨rfl, fun k => rfl, Nat.le_refl _, by simp⟩
  | cons k ks ih =>
      intro st st' h
      simp only [normLoop] at h
      cases hs : normStep nm k st with
      | error e => rw [hs] at h; simp at h
      | ok st1 =>
          rw [hs] at h
          obtain ⟨hk1, hv1, hp1, ha1⟩ := normStep_view hs
          obtain ⟨hk2, hv2, hp2, ha2⟩ := ih h
          refine ⟨hk2.trans hk1, fun k2 => (hv2 k2).trans (hv1 k2), le_trans hp1 hp2, ?_⟩
          rw [ha2, ha1]
          simp

theorem normLoop_cons_ok {nm k : String} {ks : List String} {st st1 : NormState}
    (h : normStep nm k st = .ok st1) : normLoop nm (k :: ks) st = normLoop nm ks st1 := by
  simp only [normLoop, h]

theorem normLoop_cons_err {nm k : String} {ks : List String} {st : NormState} {e : String}
    (h : normStep nm k st = .error e) : normLoop nm (k :: ks) st = .error e := by
  simp only [normLoop, h]

theorem normStep_aliasClosed {nm key : String} {st st' : NormState}
    (h : normStep nm key st = .ok st') (hc : aliasClosed st.tbl) : aliasClosed st'.tbl := by
  obtain ⟨v0, v1, tbl1, hl, hres, hbase, hst⟩ := normStep_ok h
  subst hst
  rcases hres with ⟨ha, hv1, htbl⟩ | ⟨a, t, ha, ht, hv1, htbl⟩ <;> subst htbl
  · exact hc
  · intro kv hkv a2 ha2
    rw [show (aupdate st.tbl a { t with aliasKey := some a }).map Prod.fst =
        st.tbl.map Prod.fst from aupdate_keys _ _ _]
    rcases mem_aupdate hkv with hmem | rfl
    · exact hc kv hmem a2 ha2
    · have : a = a2 := by simpa using ha2
      subst this
      exact alookup_isSome_iff_mem.mp (by rw [ht]; rfl)

theorem normStep_total {nm key : String} {st : NormState} {v0 : RawUnit}
    (hl : alookup st.tbl key = some v0) (hb : v0.base = false ∨ st.baseKey = "")
    (hc : aliasClosed st.tbl) :
    ∃ st', normStep nm key st = .ok st' ∧
      st'.baseKey = (if v0.base then key else st.baseKey) := by
  cases ha : v0.aliasKey with
  | none => exact ⟨_, normStep_eq_noalias hl hb ha, rfl⟩
  | some a =>
      have hmem : a ∈ st.tbl.map Prod.fst := hc (key, v0) (alookup_some_mem hl) a ha
      obtain ⟨t, ht⟩ : ∃ t, alookup st.tbl a = some t :=
        Option.isSome_iff_exists.mp (alookup_isSome_iff_mem.mpr hmem)
      exact ⟨_, normStep_eq_alias hl hb ha ht, rfl⟩

theorem normLoop_no_base {nm : String} (keys : List String) :
    ∀ {st : NormState}, st.baseKey = "" →
      (∀ k ∈ keys, k ∈ st.tbl.map Prod.fst) →
      (∀ k ∈ keys, baseOf st.tbl k = true → k = "") → aliasClosed st.tbl →
      ∃ st', normLoop nm keys st = .ok st' ∧ st'.baseKey = "" ∧
        st'.tbl.map Prod.fst = st.tbl.map Prod.fst ∧
        (∀ k, tblView st'.tbl k = tblView st.tbl k) ∧ aliasClosed st'.tbl := by
  induction keys with
  | nil =>
      intro st hbk0 _ _ hc
      exact ⟨st, rfl, hbk0, rfl, fun k => rfl, hc⟩
  | cons k ks ih =>
      intro st hbk0 hmem hbase hc
      obtain ⟨v0, hv0⟩ : ∃ v0, alookup st.tbl k = some v0 :=
        Option.isSome_iff_exists.mp (alookup_isSome_iff_mem.mpr (hmem k (by simp)))
      obtain ⟨st1, hst1, hbk1⟩ := normStep_total hv0 (Or.inr hbk0) hc
      have hbk1e : st1.baseKey = "" := by
        rw [hbk1]
        cases hb : v0.base with
        | false => simpa using hbk0
        | true =>
            have hke : k = "" := hbase k (by simp) (by simp [baseOf, hv0, hb])
            simp [hke]
      obtain ⟨hk1, hview1, _, _⟩ := normStep_view hst1
      obtain ⟨st', hst', hbk', hk', hview', hc'⟩ := @ih st1 hbk1e
        (fun k2 hk2 => by rw [hk1]; exact hmem k2 (List.mem_cons_of_mem k hk2))
        (fun k2 hk2 hb2 => by
          rw [baseOf_eq_of_tblView hview1] at hb2
          exact hbase k2 (List.mem_cons_of_mem k hk2) hb2)
        (normStep_aliasClosed hst1 hc)
      refine ⟨st', ?_, hbk', hk'.trans hk1,
        fun k2 => (hview' k2).trans (hview1 k2), hc'⟩
      rw [normLoop_cons_ok hst1]
      exact hst'

theorem normLoop_base {nm : String} (keys : List String) :
    ∀ {st st' : NormState}, normLoop nm keys st = .ok st' →
      (∀ k ∈ keys, baseOf st.tbl k = true → k ≠ "") →
      (st'.baseKey = st.baseKey ∧ keys.filter (baseOf st.tbl) = []) ∨
      (st.baseKey = "" ∧ ∃ k, keys.filter (baseOf st.tbl) = [k] ∧ st'.baseKey = k) := by
  induction keys with
  | nil =>
      intro st st' h _
      simp only [normLoop] at h
      cases h
      exact Or.inl ⟨rfl, rfl⟩
  | cons k ks ih =>
      intro st st' h hne
      simp only [normLoop] at h
      cases hs : normStep nm k st with
      | error e => rw [hs] at h; simp at h
      | ok st1 =>
          rw [hs] at h
          obtain ⟨_, hview1, _, _⟩ := normStep_view hs
          have hfc : ks.filter (baseOf st1.tbl) = ks.filter (baseOf st.tbl) :=
            List.filter_congr (fun k2 _ => baseOf_eq_of_tblView hview1 k2)
          have hne1 : ∀ k2 ∈ ks, baseOf st1.tbl k2 = true → k2 ≠ "" := by
            intro k2 hk2 hb2
            rw [baseOf_eq_of_tblView hview1] at hb2
            exact hne k2 (List.mem_cons_of_mem k hk2) hb2
          rcases normStep_baseKey hs with ⟨hbt, hbk, hbk1⟩ | ⟨hbt, hbk1⟩
          · -- the processed key is a base entry, recorded as the new base key
            have hkne : k ≠ "" := hne k (by simp) hbt
            rcases ih h hne1 with ⟨hb', hf⟩ | ⟨hn, k', hf, hb'⟩
            · refine Or.inr ⟨hbk, k, ?_, hb'.trans hbk1⟩
              rw [List.filter_cons, if_pos hbt, ← hfc, hf]
            · rw [hbk1] at hn; exact absurd hn hkne
          · -- not a base entry
            rcases ih h hne1 with ⟨hb', hf⟩ | ⟨hn, k', hf, hb'⟩
            · refine Or.inl ⟨hb'.trans hbk1, ?_⟩
              rw [List.filter_cons, if_neg (by simp [hbt]), ← hfc, hf]
            · refine Or.inr ⟨hbk1 ▸ hn, k', ?_, hb'⟩
              rw [List.filter_cons, if_neg (by simp [hbt]), ← hfc, hf]

theorem normLoop_dup {nm : String} (keys : List String) :
    ∀ {st : NormState} {b k1 : String} {rest : List String},
      st.baseKey = b → b ≠ "" → aliasClosed st.tbl →
      (∀ k ∈ keys, k ∈ st.tbl.map Prod.fst) →
      keys.filter (baseOf st.tbl) = k1 :: rest →
      normLoop nm keys st =
        .error ("Duplicate Base Key in table: " ++ k1 ++ " collides with " ++ b) := by
  induction keys with
  | nil => intro st b k1 rest hbk hbne hc hmem hf; simp at hf
  | cons k ks ih =>
      intro st b k1 rest hbk hbne hc hmem hf
      obtain ⟨v0, hv0⟩ : ∃ v0, alookup st.tbl k = some v0 :=
        Option.isSome_iff_exists.mp (alookup_isSome_iff_mem.mpr (hmem k (by simp)))
      by_cases hb : baseOf st.tbl k = true
      · rw [List.filter_cons, if_pos hb] at hf
        cases hf
        have hvb : v0.base = true := by simpa [baseOf, hv0] using hb
        exact normLoop_cons_err (normStep_eq_dup hv0 hvb hbk hbne)
      · have hbf : baseOf st.tbl k = false := by simpa using hb
        rw [List.filter_cons, if_neg (by simp [hbf])] at hf
        have hvb : v0.base = false := by simpa [baseOf, hv0] using hbf
        obtain ⟨st1, hst1, hbk1⟩ := normStep_total hv0 (Or.inl hvb) hc
        rw [hvb] at hbk1
        simp only [if_false, Bool.false_eq_true] at hbk1
        obtain ⟨hk1, hview1, _, _⟩ := normStep_view hst1
        rw [normLoop_cons_ok hst1]
        exact ih (hbk1.trans hbk) hbne (normStep_aliasClosed hst1 hc)
          (fun k2 hk2 => by rw [hk1]; exact hmem k2 (List.mem_cons_of_mem k hk2))
          (by rw [List.filter_congr (fun k2 _ => baseOf_eq_of_tblView hview1 k2), hf])

theorem filter_eq_cons_split {α : Type} {p : α → Bool} {l : List α} {x : α} {xs : List α}
    (h : l.filter p = x :: xs) :
    ∃ l1 l2, l = l1 ++ x :: l2 ∧ (∀ y ∈ l1, p y = false) ∧ p x = true ∧
      l2.filter p = xs := by
  induction l with
  | nil => simp at h
  | cons a l ih =>
      by_cases hp : p a
      · rw [List.filter_cons, if_pos hp] at h
        cases h
        exact ⟨[], l, by simp, by simp, hp, rfl⟩
      · rw [List.filter_cons, if_neg (by simp [hp])] at h
        obtain ⟨l1, l2, hl, h1, hx, h2⟩ := ih h
        refine ⟨a :: l1, l2, by rw [hl]; simp, ?_, hx, h2⟩
        intro y hy
        rcases List.mem_cons.mp hy with rfl | hy2
        · simpa using hp
        · exact h1 y hy2

theorem normalizeTable_ok {raw : List (String × RawUnit)} {nm : String} {nd : NormResult}
    (h : normalizeTable raw nm = .ok nd) :
    ∃ st b, normLoop nm (raw.map Prod.fst) ⟨raw, [], "", 6⟩ = .ok st ∧
      st.baseKey = b ∧ b ≠ "" ∧ nd = ⟨st.acc, b, max 6 (min 15 st.maxPrec)⟩ := by
  unfold normalizeTable at h
  cases hl : normLoop nm (raw.map Prod.fst) ⟨raw, [], "", 6⟩ with
  | error e => simp only [hl] at h; simp at h
  | ok st =>
      simp only [hl] at h
      by_cases hbk : st.baseKey = ""
      · rw [if_pos hbk] at h; cases h
      · rw [if_neg hbk] at h
        simp only [Except.ok.injEq] at h
        exact ⟨st, st.baseKey, rfl, rfl, hbk, h.symm⟩

theorem factory_ok {raw : List (String × RawUnit)} {nm : String} {ct : ConversionTable}
    (h : factory raw nm = .ok ct) :
    ∃ nd us, normalizeTable raw nm = .ok nd ∧ buildRegexString nd.table nm = .ok us ∧
      ct = ⟨nd.table, nd.base, us, nm, max 6 (min 15 nd.precision)⟩ := by
  unfold factory at h
  cases hn : normalizeTable raw nm with
  | error e => simp only [hn] at h; simp at h
  | ok nd =>
      simp only [hn] at h
      cases hb : buildRegexString nd.table nm with
      | error e => simp only [hb] at h; simp at h
      | ok us =>
          simp only [hb, Except.ok.injEq] at h
          exact ⟨nd, us, rfl, hb, h.symm⟩

theorem normStep_intScales {nm key : String} {st st' : NormState}
    (h : normStep nm key st = .ok st') (hi : intScales st.tbl) :
    intScales st'.tbl ∧ st'.maxPrec = st.maxPrec := by
  obtain ⟨v0, v1, tbl1, hl, hres, hbase, hst⟩ := normStep_ok h
  subst hst
  have hp : decPrec (decRound (v1.scale.getD decOne) 15) = 0 := by
    rcases hres with ⟨_, hv1, _⟩ | ⟨a, t, _, ht, hv1, _⟩
    · rw [hv1]; exact hi (key, v0) (alookup_some_mem hl)
    · rw [hv1]; exact hi (a, t) (alookup_some_mem ht)
  refine ⟨?_, by simp [hp]⟩
  rcases hres with ⟨_, _, htbl⟩ | ⟨a, t, _, ht, hv1, htbl⟩ <;> subst htbl
  · exact hi
  · intro kv hkv
    rcases mem_aupdate hkv with hmem | rfl
    · exact hi kv hmem
    · subst hv1
      exact hi (a, t) (alookup_some_mem ht)

theorem normLoop_intScales {nm : String} (keys : List String) :
    ∀ {st st' : NormState}, normLoop nm keys st = .ok st' → intScales st.tbl →
      st'.maxPrec = st.maxPrec := by
  induction keys with
  | nil =>
      intro st st' h _
      simp only [normLoop] at h
      cases h
      rfl
  | cons k ks ih =>
      intro st st' h hi
      simp only [normLoop] at h
      cases hs : normStep nm k st with
      | error e => rw [hs] at h; simp at h
      | ok st1 =>
          rw [hs] at h
          obtain ⟨hi1, hp1⟩ := normStep_intScales hs hi
          exact (ih h hi1).trans hp1

theorem normStep_extend {nm key : String} {tbl : List (String × RawUnit)}
    {acc : List (String × NormalizedUnit)} {bk : String} {mp : Nat}
    {st' : NormState} (l2 : List (String × RawUnit))
    (h : normStep nm key ⟨tbl, acc, bk, mp⟩ = .ok st') :
    normStep nm key ⟨tbl ++ l2, acc, bk, mp⟩ =
      .ok ⟨st'.tbl ++ l2, st'.acc, st'.baseKey, st'.maxPrec⟩ := by
  obtain ⟨v0, v1, tbl1, hl, hres, hbase, hst⟩ := normStep_ok h
  have hb : v0.base = false ∨ bk = "" := by
    rcases hbase with ⟨hb2, hbk2⟩ | hb2
    · exact Or.inr hbk2
    · exact Or.inl hb2
  rcases hres with ⟨ha, hv1, htbl⟩ | ⟨a, t, ha, ht, hv1, htbl⟩
  · subst hv1
    rw [@normStep_eq_noalias nm key ⟨tbl ++ l2, acc, bk, mp⟩ _
      (alookup_append_left l2 hl) hb ha]
    subst htbl
    subst hst
    rfl
  · subst hv1
    rw [@normStep_eq_alias nm key a ⟨tbl ++ l2, acc, bk, mp⟩ _ t
      (alookup_append_left l2 hl) hb ha (alookup_append_left l2 ht)]
    subst htbl
    subst hst
    simp only [Except.ok.injEq]
    rw [aupdate_append_left _ l2 ht]

theorem normLoop_extend {nm : String} (keys : List String)
    (l2 : List (String × RawUnit)) :
    ∀ {tbl : List (String × RawUnit)} {acc : List (String × NormalizedUnit)}
      {bk : String} {mp : Nat} {st' : NormState},
      normLoop nm keys ⟨tbl, acc, bk, mp⟩ = .ok st' →
      normLoop nm keys ⟨tbl ++ l2, acc, bk, mp⟩ =
        .ok ⟨st'.tbl ++ l2, st'.acc, st'.baseKey, st'.maxPrec⟩ := by
  induction keys with
  | nil =>
      intro tbl acc bk mp st' h
      simp only [normLoop] at h ⊢
      cases h
      rfl
  | cons k ks ih =>
      intro tbl acc bk mp st' h
      simp only [normLoop] at h
      cases hs : normStep nm k ⟨tbl, acc, bk, mp⟩ with
      | error e => rw [hs] at h; simp at h
      | ok st1 =>
          rw [hs] at h
          rw [normLoop_cons_ok (normStep_extend l2 hs)]
          exact ih h

theorem normStep_accClosed {nm key : String} {st st' : NormState}
    (h : normStep nm key st = .ok st') (hc : accClosed st) : accClosed st' := by
  obtain ⟨v0, v1, tbl1, hl, hres, hbase, hst⟩ := normStep_ok h
  have hkeys : tbl1.map Prod.fst = st.tbl.map Prod.fst := by
    rcases hres with ⟨_, _, htbl⟩ | ⟨a, t, _, _, _, htbl⟩ <;> subst htbl
    · rfl
    · exact aupdate_keys _ _ _
  subst hst
  intro kv hkv a2 ha2
  simp only at hkv ⊢
  rw [hkeys]
  rcases List.mem_append.mp hkv with hold | hnew
  · exact hc kv hold a2 ha2
  · have hkv2 : kv = (key, normUnitOf v1) := by simpa using hnew
    subst hkv2
    rcases hres with ⟨han, hv1, _⟩ | ⟨a, t, han, ht, hv1, _⟩
    · rw [hv1] at ha2
      simp only [normUnitOf, han] at ha2
      exact Option.noConfusion ha2
    · rw [hv1] at ha2
      have ha2a : a2 = a := by
        have hx : (normUnitOf { t with aliasKey := some a }).aliasKey = some a := rfl
        rw [hx] at ha2
        exact (Option.some.inj ha2).symm
      subst ha2a
      exact alookup_isSome_iff_mem.mp (by rw [ht]; rfl)

theorem normLoop_accClosed {nm : String} (keys : List String) :
    ∀ {st st' : NormState}, normLoop nm keys st = .ok st' → accClosed st →
      accClosed st' := by
  induction keys with
  | nil =>
      intro st st' h hc
      simp only [normLoop] at h
      cases h
      exact hc
  | cons k ks ih =>
      intro st st' h hc
      simp only [normLoop] at h
      cases hs : normStep nm k st with
      | error e => rw [hs] at h; simp at h
      | ok st1 =>
          rw [hs] at h
          exact ih h (normStep_accClosed hs hc)

/-- Every table built by `factory` has all alias fields pointing at present
keys, so the dangling-alias lookup failure cannot occur on it. -/
theorem factory_closure {raw : List (String × RawUnit)} {nm : String} {ct : ConversionTable}
    (h : factory raw nm = .ok ct) :
    ∀ (k : String) (u : NormalizedUnit), alookup ct.table k = some u →
      ∀ a : String, u.aliasKey = some a → (alookup ct.table a).isSome = true := by
  obtain ⟨nd, us, hnorm, hbuild, hct⟩ := factory_ok h
  obtain ⟨st, b, hloop, hbk, _, hnd⟩ := normalizeTable_ok hnorm
  intro k u hku a ha
  have hacc : accClosed st :=
    normLoop_accClosed _ hloop (by intro kv hkv; simp at hkv)
  have htb : ct.table = st.acc := by rw [hct, hnd]
  have hmem : a ∈ st.tbl.map Prod.fst := by
    refine hacc (k, u) ?_ a ha
    rw [← htb]
    exact alookup_some_mem hku
  obtain ⟨hk1, _, _, hk2⟩ := normLoop_view _ hloop
  have h1 : a ∈ List.map Prod.fst raw := by
    have h0 := hmem
    rw [hk1] at h0
    simpa using h0
  have h2 : a ∈ st.acc.map Prod.fst := by
    rw [hk2]
    simpa using h1
  rw [htb]
  exact alookup_isSome_iff_mem.mpr h2

theorem normStep_noIncoming {nm key k : String} {st st' : NormState} {u : RawUnit}
    (h : normStep nm key st = .ok st') (hni : noIncoming st.tbl k)
    (hu : alookup st.tbl k = some u) :
    noIncoming st'.tbl k ∧ alookup st'.tbl k = some u := by
  obtain ⟨v0, v1, tbl1, hl, hres, hbase, hst⟩ := normStep_ok h
  subst hst
  rcases hres with ⟨_, _, htbl⟩ | ⟨a, t, ha, ht, hv1, htbl⟩ <;> subst htbl
  · exact ⟨hni, hu⟩
  · have hak : a ≠ k := by
      intro hak
      subst hak
      exact hni (key, v0) (alookup_some_mem hl) ha
    refine ⟨?_, ?_⟩
    · intro kv hkv
      rcases mem_aupdate hkv with hmem | rfl
      · exact hni kv hmem
      · subst hv1
        simp only
        intro hcon
        exact hak (Option.some.inj hcon)
    · rw [alookup_aupdate_of_ne _ _ _ _ (Ne.symm hak)]
      exact hu

theorem normLoop_noIncoming {nm k : String} (keys : List String) :
    ∀ {st st' : NormState} {u : RawUnit}, normLoop nm keys st = .ok st' →
      noIncoming st.tbl k → alookup st.tbl k = some u →
      noIncoming st'.tbl k ∧ alookup st'.tbl k = some u := by
  induction keys with
  | nil =>
      intro st st' u h hni hu
      simp only [normLoop] at h
      cases h
      exact ⟨hni, hu⟩
  | cons k2 ks ih =>
      intro st st' u h hni hu
      simp only [normLoop] at h
      cases hs : normStep nm k2 st with
      | error e => rw [hs] at h; simp at h
      | ok st1 =>
          rw [hs] at h
          obtain ⟨hni1, hu1⟩ := normStep_noIncoming hs hni hu
          exact ih h hni1 hu1

/-! ## Claim C3: base-unit uniqueness -/

/-- Counterexample for C3 as stated.  First: a table with zero `base: true`
entries whose (dangling) alias entry is processed first yields the
caught-exception error, not the "no base key declared" error.  Second: the
source records the base key into a falsy `''` sentinel (`let baseKey = '';
if (baseKey) ...`), so `emptyKeyTwoBaseRaw` — every entry flagged
`base: true`, two entries in all — normalizes successfully with base `"x"`
instead of raising the duplicate-base error, refuting "succeeds only if
exactly one entry has base: true".  Third: the sole base entry of
`emptyKeyBaseRaw` is keyed `""`, and the final `if (!baseKey)` test reports
the no-base error even though exactly one entry is flagged `base: true`. -/
theorem claim_C3_counterexample :
    ((∀ kv ∈ danglingRaw, kv.2.base = false) ∧
      normalizeTable danglingRaw "T" =
        .error "Error normalizing table: T - cannot set alias on missing target ghost" ∧
      normalizeTable danglingRaw "T" ≠
        .error "No Base Key declared in table: T") ∧
      ((∀ kv ∈ emptyKeyTwoBaseRaw, kv.2.base = true) ∧
        emptyKeyTwoBaseRaw.length = 2 ∧
        (normalizeTable emptyKeyTwoBaseRaw "T").toOption.map NormResult.base =
          some "x") ∧
      ((∀ kv ∈ emptyKeyBaseRaw, kv.2.base = true) ∧
        emptyKeyBaseRaw.length = 1 ∧
        normalizeTable emptyKeyBaseRaw "E" =
          .error "No Base Key declared in table: E") := by
  refine ⟨⟨by decide, by decide, by decide⟩,
    ⟨by decide, by decide, by decide⟩, ⟨by decide, by decide, by decide⟩⟩

/-- Claim C3 (amended): the source keeps its base-key record in a falsy `''`
string sentinel, so the claimed bookkeeping holds only away from
empty-string keys.  Provided no base-flagged entry is keyed `""`,
normalization succeeds only when exactly one entry is flagged `base: true`
(first conjunct: on success the key list contains exactly one base-flagged
key, and it is the reported base).  Provided every alias field of the raw
table resolves to a present key (so no entry fails before the base
bookkeeping), a table with zero base entries — more generally, one whose
base-flagged entries are all keyed `""` and hence invisible to the sentinel
— yields the "no base key declared" error, and a table with two or more
base entries whose first base-flagged key is non-empty yields the
duplicate-base error naming both colliding keys, issued at the point the
second base entry is seen; no table is produced in either case. -/
theorem claim_C3 :
    (∀ (raw : List (String × RawUnit)) (nm : String) (nd : NormResult),
        (∀ kv ∈ raw, kv.2.base = true → kv.1 ≠ "") →
        normalizeTable raw nm = .ok nd →
        ∃ k, (raw.map Prod.fst).filter (baseOf raw) = [k] ∧ nd.base = k) ∧
      (∀ (raw : List (String × RawUnit)) (nm : String),
        aliasClosed raw → (∀ kv ∈ raw, kv.2.base = true → kv.1 = "") →
        normalizeTable raw nm = .error ("No Base Key declared in table: " ++ nm)) ∧
      (∀ (raw : List (String × RawUnit)) (nm : String) (k1 k2 : String)
          (rest : List String),
        aliasClosed raw → k1 ≠ "" →
        (raw.map Prod.fst).filter (baseOf raw) = k1 :: k2 :: rest →
        normalizeTable raw nm =
          .error ("Duplicate Base Key in table: " ++ k2 ++ " collides with " ++ k1)) := by
  refine ⟨?_, ?_, ?_⟩
  · intro raw nm nd hne h
    obtain ⟨st, b, hloop, hbk, hbne, hnd⟩ := normalizeTable_ok h
    have hne2 : ∀ k ∈ raw.map Prod.fst, baseOf raw k = true → k ≠ "" := by
      intro k _ hbase
      unfold baseOf at hbase
      cases hx : alookup raw k with
      | none => rw [hx] at hbase; simp at hbase
      | some v =>
          rw [hx] at hbase
          simp only [Option.map_some', Option.getD_some] at hbase
          exact hne (k, v) (alookup_some_mem hx) hbase
    rcases normLoop_base _ hloop hne2 with ⟨hb', hf⟩ | ⟨_, k, hf, hb'⟩
    · exact absurd (hbk.symm.trans hb') hbne
    · have hbk2 : b = k := hbk.symm.trans hb'
      subst hbk2
      exact ⟨b, hf, by rw [hnd]⟩
  · intro raw nm hac hnb
    have hbof : ∀ k2 : String, baseOf raw k2 = true → k2 = "" := by
      intro k2 hk2
      unfold baseOf at hk2
      cases hx : alookup raw k2 with
      | none => rw [hx] at hk2; simp at hk2
      | some v =>
          rw [hx] at hk2
          simp only [Option.map_some', Option.getD_some] at hk2
          exact hnb (k2, v) (alookup_some_mem hx) hk2
    obtain ⟨st', hloop, hbk', _, _, _⟩ :=
      @normLoop_no_base nm (raw.map Prod.fst) ⟨raw, [], "", 6⟩ rfl
        (fun k hk => hk) (fun k _ => hbof k) hac
    simp only [normalizeTable, hloop]
    rw [if_pos hbk']
  · intro raw nm k1 k2 rest hac hk1ne hf
    obtain ⟨l1, l2, hsplit, hfree1, hb1, hf2⟩ := filter_eq_cons_split hf
    obtain ⟨st1, hloop1, hbk1, hkeys1, hview1, hac1⟩ :=
      @normLoop_no_base nm l1 ⟨raw, [], "", 6⟩ rfl
        (fun k hk => by
          simp only
          have : k ∈ raw.map Prod.fst := by rw [hsplit]; exact List.mem_append_left _ hk
          exact this)
        (fun k hk hb => absurd hb (by simp [hfree1 k hk])) hac
    have hk1mem : k1 ∈ st1.tbl.map Prod.fst := by
      rw [hkeys1]
      simp only
      rw [hsplit]
      exact List.mem_append_right _ (by simp)
    obtain ⟨v0, hv0⟩ : ∃ v0, alookup st1.tbl k1 = some v0 :=
      Option.isSome_iff_exists.mp (alookup_isSome_iff_mem.mpr hk1mem)
    have hvb : v0.base = true := by
      have := baseOf_eq_of_tblView hview1 k1
      rw [hb1] at this
      simpa [baseOf, hv0] using this.symm
    obtain ⟨st2, hstep, hbk2⟩ := @normStep_total nm _ _ _ hv0 (Or.inr hbk1) hac1
    rw [hvb] at hbk2
    simp only [if_true] at hbk2
    obtain ⟨hkeys2, hview2, _, _⟩ := normStep_view hstep
    have hdup := @normLoop_dup nm l2 st2 k1 k2
      rest hbk2 hk1ne (normStep_aliasClosed hstep hac1)
      (fun k hk => by
        rw [hkeys2, hkeys1]
        simp only
        rw [hsplit]
        exact List.mem_append_right _ (List.mem_cons_of_mem k1 hk))
      (by
        rw [List.filter_congr (fun k3 _ => (baseOf_eq_of_tblView hview2 k3).trans
          (baseOf_eq_of_tblView hview1 k3))]
        exact hf2)
    have hloopfull : normLoop nm (raw.map Prod.fst) ⟨raw, [], "", 6⟩ =
        .error ("Duplicate Base Key in table: " ++ k2 ++ " collides with " ++ k1) := by
      rw [hsplit, normLoop_append, hloop1]
      show normLoop nm (k1 :: l2) st1 = _
      rw [normLoop_cons_ok hstep, hdup]
    simp only [normalizeTable, hloopfull]

/-- Witness for C3: the small concrete tables — success on a one-base table,
no-base error on `noBaseRaw` and on the `""`-keyed sole-base table
`emptyKeyBaseRaw`, duplicate-base error on `dupBaseRaw` (with the error
naming `"c"` and `"a"` in source order). -/
theorem claim_C3_witness :
    (∃ k, (intScalesRaw.map Prod.fst).filter (baseOf intScalesRaw) = [k] ∧
        (⟨[("m", ⟨false, ⟨100, 0⟩, ⟨0, 0⟩, none, none, none⟩),
           ("cm", ⟨true, ⟨1, 0⟩, ⟨0, 0⟩, none, none, none⟩)], "cm", 6⟩ : NormResult).base = k) ∧
      normalizeTable noBaseRaw "L" = .error "No Base Key declared in table: L" ∧
      normalizeTable emptyKeyBaseRaw "E" = .error "No Base Key declared in table: E" ∧
      normalizeTable dupBaseRaw "D" =
        .error "Duplicate Base Key in table: c collides with a" := by
  refine ⟨?_, ?_, ?_, ?_⟩
  · exact claim_C3.1 intScalesRaw "L"
      ⟨[("m", ⟨false, ⟨100, 0⟩, ⟨0, 0⟩, none, none, none⟩),
        ("cm", ⟨true, ⟨1, 0⟩, ⟨0, 0⟩, none, none, none⟩)], "cm", 6⟩ (by decide) (by decide)
  · refine claim_C3.2.1 noBaseRaw "L" ?_ (by decide)
    intro kv hkv a ha
    simp only [noBaseRaw, List.mem_singleton] at hkv
    subst hkv
    simp at ha
  · refine claim_C3.2.1 emptyKeyBaseRaw "E" ?_ (by decide)
    intro kv hkv a ha
    simp only [emptyKeyBaseRaw, List.mem_singleton] at hkv
    subst hkv
    simp at ha
  · refine claim_C3.2.2 dupBaseRaw "D" "a" "c" [] ?_ (by decide) (by decide)
    intro kv hkv a ha
    simp only [dupBaseRaw, List.mem_cons, List.not_mem_nil, or_false] at hkv
    rcases hkv with hkv | hkv | hkv <;> subst hkv <;> simp at ha

/-! ## Claim C4: precision bounds and monotonicity -/

/-- Claim C4: for every raw table that normalizes successfully the reported
precision satisfies `6 ≤ precision ≤ 15`; a table whose scales are all
integral reports precision 6; appending a unit never decreases the reported
precision (in particular adding one with more decimal digits in its scale);
and a scale with more than 15 decimal digits (the shortest digits of `5/9`)
clamps to 15. -/
theorem claim_C4 :
    (∀ (raw : List (String × RawUnit)) (nm : String) (nd : NormResult),
        normalizeTable raw nm = .ok nd → 6 ≤ nd.precision ∧ nd.precision ≤ 15) ∧
      (∀ (raw : List (String × RawUnit)) (nm : String) (nd : NormResult),
        normalizeTable raw nm = .ok nd → intScales raw → nd.precision = 6) ∧
      (∀ (raw : List (String × RawUnit)) (kv : String × RawUnit) (nm : String)
          (nd nd' : NormResult),
        normalizeTable raw nm = .ok nd → normalizeTable (raw ++ [kv]) nm = .ok nd' →
        nd.precision ≤ nd'.precision) ∧
      (normalizeTable repScaleRaw "t").map NormResult.precision = .ok 15 := by
  refine ⟨?_, ?_, ?_, by decide⟩
  · intro raw nm nd h
    obtain ⟨st, b, _, _, _, hnd⟩ := normalizeTable_ok h
    subst hnd
    simp only
    omega
  · intro raw nm nd h hint
    obtain ⟨st, b, hloop, _, _, hnd⟩ := normalizeTable_ok h
    have hmp : st.maxPrec = 6 := normLoop_intScales _ hloop hint
    subst hnd
    simp [hmp]
  · intro raw kv nm nd nd' h1 h2
    obtain ⟨st, b, hloop, hbk, _, hnd⟩ := normalizeTable_ok h1
    obtain ⟨st2, b2, hloop2, hbk2, _, hnd2⟩ := normalizeTable_ok h2
    have hmap : (raw ++ [kv]).map Prod.fst = raw.map Prod.fst ++ [kv.1] := by simp
    rw [hmap, normLoop_append] at hloop2
    have hext := @normLoop_extend nm (raw.map Prod.fst) [kv] _ _ _ _ _ hloop
    rw [hext] at hloop2
    have hmono : st.maxPrec ≤ st2.maxPrec := by
      have hview := @normLoop_view nm [kv.1] _ _ hloop2
      exact hview.2.2.1
    subst hnd
    subst hnd2
    simp only
    omega

/-- Witness for C4 on the concrete tables: bounds and the integral-scale
floor at `intScalesRaw` (scale 100), monotonicity for `intScalesRaw`
extended with a fractional-scale unit. -/
theorem claim_C4_witness :
    (6 ≤ (6 : Nat) ∧ (6 : Nat) ≤ 15) ∧
      (⟨[("m", ⟨false, ⟨100, 0⟩, ⟨0, 0⟩, none, none, none⟩),
         ("cm", ⟨true, ⟨1, 0⟩, ⟨0, 0⟩, none, none, none⟩)], "cm", 6⟩ : NormResult).precision
        = 6 ∧
      (⟨[("m", ⟨false, ⟨100, 0⟩, ⟨0, 0⟩, none, none, none⟩),
         ("cm", ⟨true, ⟨1, 0⟩, ⟨0, 0⟩, none, none, none⟩)], "cm", 6⟩ : NormResult).precision ≤
        (⟨[("m", ⟨false, ⟨100, 0⟩, ⟨0, 0⟩, none, none, none⟩),
           ("cm", ⟨true, ⟨1, 0⟩, ⟨0, 0⟩, none, none, none⟩),
           ("x", ⟨false, ⟨15, 1⟩, ⟨0, 0⟩, none, none, none⟩)], "cm", 6⟩ : NormResult).precision := by
  refine ⟨?_, ?_, ?_⟩
  · have h := claim_C4.1 intScalesRaw "L"
      ⟨[("m", ⟨false, ⟨100, 0⟩, ⟨0, 0⟩, none, none, none⟩),
        ("cm", ⟨true, ⟨1, 0⟩, ⟨0, 0⟩, none, none, none⟩)], "cm", 6⟩ (by decide)
    exact h
  · exact claim_C4.2.1 intScalesRaw "L"
      ⟨[("m", ⟨false, ⟨100, 0⟩, ⟨0, 0⟩, none, none, none⟩),
        ("cm", ⟨true, ⟨1, 0⟩, ⟨0, 0⟩, none, none, none⟩)], "cm", 6⟩ (by decide)
      (by unfold intScales; decide)
  · exact claim_C4.2.2.1 intScalesRaw ("x", { scale := some ⟨15, 1⟩ }) "L"
      ⟨[("m", ⟨false, ⟨100, 0⟩, ⟨0, 0⟩, none, none, none⟩),
        ("cm", ⟨true, ⟨1, 0⟩, ⟨0, 0⟩, none, none, none⟩)], "cm", 6⟩
      ⟨[("m", ⟨false, ⟨100, 0⟩, ⟨0, 0⟩, none, none, none⟩),
        ("cm", ⟨true, ⟨1, 0⟩, ⟨0, 0⟩, none, none, none⟩),
        ("x", ⟨false, ⟨15, 1⟩, ⟨0, 0⟩, none, none, none⟩)], "cm", 6⟩
      (by decide) (by decide)

/-! ## Claim C10: dangling aliases and the reachability of the find error -/

/-- Counterexample for C10 as stated: `ghostRaw` contains the entry
`"k" ↦ {alias: "ghost"}` whose target is absent, yet normalization succeeds:
the earlier entry `"j" ↦ {alias: "k"}` overwrites `"k"`'s alias field in the
raw table (the mutation `value.alias = a` in the source) before `"k"` is
processed, masking the dangling alias. -/
theorem claim_C10_counterexample :
    alookup ghostRaw "k" = some { aliasKey := some "ghost" } ∧
      "ghost" ∉ ghostRaw.map Prod.fst ∧
      (normalizeTable ghostRaw "g").toOption.isSome = true := by
  refine ⟨by decide, by decide, by decide⟩

/-- Claim C10 (amended): a raw table containing an entry with a dangling
alias fails normalization provided no other entry aliases that entry (whose
processing would overwrite the dangling alias field — third conjunct); and
every table actually produced by `factory` has all alias fields naming
present keys (first conjunct), so `find` on any unit present in such a table
always succeeds and its "alias does not map to a valid unit" branch is
unreachable (second conjunct). -/
theorem claim_C10 :
    (∀ (raw : List (String × RawUnit)) (nm : String) (ct : ConversionTable),
        factory raw nm = .ok ct →
        ∀ (k : String) (u : NormalizedUnit), alookup ct.table k = some u →
          ∀ a : String, u.aliasKey = some a →
            (alookup ct.table a).isSome = true) ∧
      (∀ (raw : List (String × RawUnit)) (nm : String) (ct : ConversionTable)
          (m : ConversionTableManager) (tn key : String) (u : NormalizedUnit),
        factory raw nm = .ok ct → alookup m.tables tn = some ct →
        alookup ct.table key = some u →
        ∃ fr, find m key tn = .ok fr) ∧
      (∀ (raw : List (String × RawUnit)) (nm k : String) (u : RawUnit) (a : String),
        alookup raw k = some u → u.aliasKey = some a → a ∉ raw.map Prod.fst →
        (∀ kv ∈ raw, kv.2.aliasKey ≠ some k) →
        (normalizeTable raw nm).toOption = none) := by
  refine ⟨?_, ?_, ?_⟩
  · intro raw nm ct h k u hku a ha
    exact factory_closure h k u hku a ha
  · intro raw nm ct m tn key u hfac hm hku
    simp only [find, hm, hku]
    cases ha : u.aliasKey with
    | none => simp only [ha]; exact ⟨_, rfl⟩
    | some a =>
        have hs := factory_closure hfac key u hku a ha
        obtain ⟨r, hr⟩ := Option.isSome_iff_exists.mp hs
        simp only [ha, hr]
        exact ⟨_, rfl⟩
  · intro raw nm k u a hk hua hnot hni
    cases hN : normalizeTable raw nm with
    | error e => rfl
    | ok nd =>
        exfalso
        obtain ⟨st, b, hloop, _, _, _⟩ := normalizeTable_ok hN
        have hkmem : k ∈ raw.map Prod.fst :=
          alookup_isSome_iff_mem.mp (by rw [hk]; rfl)
        obtain ⟨l1, l2, hsplit⟩ := List.append_of_mem hkmem
        rw [hsplit, normLoop_append] at hloop
        cases hrun : normLoop nm l1 ⟨raw, [], "", 6⟩ with
        | error e => rw [hrun] at hloop; simp at hloop
        | ok st1 =>
            rw [hrun] at hloop
            have hinv := @normLoop_noIncoming nm k l1 _ _ _ hrun hni hk
            have hkeys := (@normLoop_view nm l1 _ _ hrun).1
            have hloop2 : normLoop nm (k :: l2) st1 = .ok st := hloop
            simp only [normLoop] at hloop2
            cases hs : normStep nm k st1 with
            | error e => rw [hs] at hloop2; simp at hloop2
            | ok st2 =>
                obtain ⟨v0, v1, tbl1, hl0, hres, _, _⟩ := normStep_ok hs
                have hv0u : v0 = u := (Option.some.inj (hinv.2.symm.trans hl0)).symm
                rcases hres with ⟨han, _, _⟩ | ⟨a2, t, han, ht, _, _⟩
                · rw [hv0u, hua] at han
                  cases han
                · rw [hv0u, hua] at han
                  have ha2a : a = a2 := Option.some.inj han
                  have hmem2 : a2 ∈ st1.tbl.map Prod.fst :=
                    alookup_isSome_iff_mem.mp (by rw [ht]; rfl)
                  rw [hkeys] at hmem2
                  rw [ha2a] at hnot
                  exact hnot (by simpa using hmem2)

/-- Witness for C10: the typography table (whose `"i"` entry aliases
`"in"`), a registry holding it, and the dangling-alias table
`danglingRaw`. -/
theorem claim_C10_witness :
    (alookup typCT.table "in").isSome = true ∧
      (∃ fr, find mgrTyp "i" "typography" = .ok fr) ∧
      (normalizeTable danglingRaw "T").toOption = none := by
  refine ⟨?_, ?_, ?_⟩
  · exact claim_C10.1 typRaw "typography" typCT (by decide) "i"
      ⟨false, ⟨720, 1⟩, ⟨0, 0⟩, some "in", none, some ("Inch", "Inches")⟩
      (by decide) "in" (by decide)
  · exact claim_C10.2.1 typRaw "typography" typCT mgrTyp "typography" "i"
      ⟨false, ⟨720, 1⟩, ⟨0, 0⟩, some "in", none, some ("Inch", "Inches")⟩
      (by decide) (by decide) (by decide)
  · refine claim_C10.2.2 danglingRaw "T" "x" { aliasKey := some "ghost" } "ghost"
      (by decide) (by decide) (by decide) ?_
    intro kv hkv
    simp only [danglingRaw, List.mem_singleton] at hkv
    subst hkv
    simp
